import Mathlib

/-!
# Verification of the relay VM core (inliner, bytecode compiler, interpreter)

Shallow embedding of the two source files of the repository:

* `src/relay/vm/inline_primitives.cc` — the primitive inliner
  (`PrimitiveInliner`, `InlinePrimitives`);
* `src/relay/vm/vm.cc` — the instruction set and its printer, the bytecode
  compiler (`VMCompiler`, `CompileFunc`, `CompileModule`) and the interpreter
  (`VirtualMachine::PushFrame/PopFrame/InvokeGlobal/Invoke/Run`,
  `InvokePacked`, the `relay._runtime._testeval` entry point).

External collaborators that are used by these files but are not part of the
repository sources given here (the IR node model, `ExprMutator`/`ExprFunctor`
defaults, `DeadCodeElimination`, the kernel lowering engine and the backend
build step) are modelled from the specification; each such definition says so
in its doc comment.

Machine integers: all of the indices involved are C++ `size_t` values that
stay tiny (stack sizes, instruction counts, arities); they are modelled as
`Nat`.  Where C++ `size_t` subtraction could wrap, the embedding reproduces
the effect of the wrap on the subsequent bounds check explicitly (see
`popFrame`).  Undefined behaviour (out-of-bounds vector indexing, reading an
uninitialised byte) and divergence (the inliner's alias-chasing `while` loop
on a cyclic alias chain) are modelled as `none`.
-/

/-- Element data types that occur in the programs under test
(`DLDataType` / `TVMType` on the C++ side). -/
inductive DTy where
  | float32
  | boolT
  | int64
deriving DecidableEq, Repr

/-- Checked types of IR expressions: the compiler only ever inspects whether a
call's checked type is a tensor type with static shape (`TensorTypeNode` with
`tvm::Integer` dimensions, vm.cc lines 189-198); every other type is opaque to
the core. -/
inductive Ty where
  | tensorTy (shape : List Int) (dtype : DTy)
  | otherTy
deriving DecidableEq, Repr

/-- The relay IR fragment consumed by the two source files.  Modelled from the
spec (§3, "IR entities", consumed, not defined in the sources): variable
references (a variable is a unique binding identity, modelled as a `Nat` id),
global-name references, function literals with a primitive attribute, calls
(which carry their checked type, read by the compiler), let bindings, and
conditionals.  Expressions are trees; the only sharing the C++ side relies on
(the memoisation of `ExprMutator` keyed on pointer identity) is reproduced
where it matters, in the let case of the inliner's traversal. -/
inductive Expr where
  | var (v : Nat)
  | gvar (g : Nat)
  | func (params : List Nat) (body : Expr) (isPrim : Bool)
  | call (op : Expr) (args : List Expr) (ty : Ty)
  | lett (v : Nat) (value : Expr) (body : Expr)
  | ite (c t e : Expr)

mutual

/-- Boolean structural equality on expressions (the derive handler does not
support the nested `List Expr`). -/
def beqE : Expr → Expr → Bool
  | Expr.var v, Expr.var w => v == w
  | Expr.gvar g, Expr.gvar h => g == h
  | Expr.func ps b p, Expr.func ps' b' p' => ps == ps' && beqE b b' && p == p'
  | Expr.call op args ty, Expr.call op' args' ty' =>
    beqE op op' && beqL args args' && ty == ty'
  | Expr.lett v value body, Expr.lett v' value' body' =>
    v == v' && beqE value value' && beqE body body'
  | Expr.ite c t e, Expr.ite c' t' e' => beqE c c' && beqE t t' && beqE e e'
  | _, _ => false

def beqL : List Expr → List Expr → Bool
  | [], [] => true
  | a :: as, b :: bs => beqE a b && beqL as bs
  | _, _ => false

end

mutual

theorem beqE_eq : ∀ a b : Expr, beqE a b = true → a = b
  | Expr.var _, Expr.var _, h => by
    simp [beqE] at h; simp [h]
  | Expr.gvar _, Expr.gvar _, h => by
    simp [beqE] at h; simp [h]
  | Expr.func _ b _, Expr.func _ b' _, h => by
    simp [beqE] at h
    obtain ⟨⟨h1, h2⟩, h3⟩ := h
    simp [h1, h3, beqE_eq b b' h2]
  | Expr.call op args _, Expr.call op' args' _, h => by
    simp [beqE] at h
    obtain ⟨⟨h1, h2⟩, h3⟩ := h
    simp [h3, beqE_eq op op' h1, beqL_eq args args' h2]
  | Expr.lett _ value body, Expr.lett _ value' body', h => by
    simp [beqE] at h
    obtain ⟨⟨h1, h2⟩, h3⟩ := h
    simp [h1, beqE_eq value value' h2, beqE_eq body body' h3]
  | Expr.ite c t e, Expr.ite c' t' e', h => by
    simp [beqE] at h
    obtain ⟨⟨h1, h2⟩, h3⟩ := h
    simp [beqE_eq c c' h1, beqE_eq t t' h2, beqE_eq e e' h3]

theorem beqL_eq : ∀ a b : List Expr, beqL a b = true → a = b
  | [], [], _ => rfl
  | a :: as, b :: bs, h => by
    simp [beqL] at h
    obtain ⟨h1, h2⟩ := h
    simp [beqE_eq a b h1, beqL_eq as bs h2]

end

mutual

theorem beqE_refl : ∀ a : Expr, beqE a a = true
  | Expr.var _ => by simp [beqE]
  | Expr.gvar _ => by simp [beqE]
  | Expr.func _ b _ => by simp [beqE, beqE_refl b]
  | Expr.call op args _ => by simp [beqE, beqE_refl op, beqL_refl args]
  | Expr.lett _ value body => by simp [beqE, beqE_refl value, beqE_refl body]
  | Expr.ite c t e => by simp [beqE, beqE_refl c, beqE_refl t, beqE_refl e]

theorem beqL_refl : ∀ a : List Expr, beqL a a = true
  | [] => rfl
  | a :: as => by simp [beqL, beqE_refl a, beqL_refl as]

end

instance : DecidableEq Expr := fun a b =>
  if h : beqE a b = true then isTrue (beqE_eq a b h)
  else isFalse (fun he => h (he ▸ beqE_refl a))

/-- `PrimitiveInliner::var_map` — `std::unordered_map<Var, Expr>` keyed on the
variable's identity, modelled as an association list. -/
abbrev VarMap := List (Nat × Expr)

/-- Lookup in the variable map (`var_map.find`). -/
def lookupVar (m : VarMap) (v : Nat) : Option Expr :=
  match m with
  | [] => none
  | (w, e) :: rest => if w = v then some e else lookupVar rest v

/-- `var_map.insert({v, e})`: `std::unordered_map::insert` does not overwrite
an existing binding. -/
def insertIfAbsent (m : VarMap) (v : Nat) (e : Expr) : VarMap :=
  match lookupVar m v with
  | some _ => m
  | none => (v, e) :: m

/-- Is the expression a primitive function literal
(`op.as<FunctionNode>()` + `func->IsPrimitive()`)? -/
def isPrimLit : Expr → Bool
  | Expr.func _ _ true => true
  | _ => false

/-- Is the expression a global-name reference (`op.as<GlobalVarNode>()`)? -/
def isGvarE : Expr → Bool
  | Expr.gvar _ => true
  | _ => false

/-- Result of the operator chain-collapsing loop of
`PrimitiveInliner::VisitExpr_(const CallNode*)` (inline_primitives.cc lines
38-49): either the walk stopped at a variable that is not in `var_map`
(the C++ code then returns the default traversal immediately), or it stopped
at a non-variable expression. -/
inductive ChaseRes where
  | unmapped (v : Nat)
  | nonVar (e : Expr)
deriving DecidableEq

/-- Entries of `m` whose key has not been visited yet; termination measure of
`chase`. -/
def keysNotSeen (m : VarMap) (seen : List Nat) : Nat :=
  (List.filter (fun p => decide (p.1 ∉ seen)) m).length

theorem lookupVar_mem {m : VarMap} {v : Nat} {e : Expr}
    (h : lookupVar m v = some e) : (v, e) ∈ m := by
  induction m with
  | nil => simp [lookupVar] at h
  | cons p rest ih =>
    obtain ⟨w, e'⟩ := p
    rw [lookupVar] at h
    by_cases hw : w = v
    · rw [if_pos hw] at h
      cases h
      simp [hw]
    · rw [if_neg hw] at h
      exact List.mem_cons_of_mem _ (ih h)

theorem filter_length_mono {α : Type} (l : List α) (p q : α → Bool)
    (himp : ∀ a ∈ l, q a = true → p a = true) :
    (l.filter q).length ≤ (l.filter p).length := by
  induction l with
  | nil => simp
  | cons a rest ih =>
    have ih' := ih (fun b hb => himp b (List.mem_cons_of_mem _ hb))
    by_cases hq : q a = true
    · have hp := himp a (List.mem_cons_self _ _) hq
      simp [List.filter, hq, hp]
      omega
    · simp at hq
      cases hp : p a <;> simp [List.filter, hq, hp] <;> omega

theorem filter_length_strict {α : Type} (l : List α) (p q : α → Bool)
    (himp : ∀ a ∈ l, q a = true → p a = true)
    (x : α) (hx : x ∈ l) (hpx : p x = true) (hqx : q x = false) :
    (l.filter q).length < (l.filter p).length := by
  induction l with
  | nil => simp at hx
  | cons a rest ih =>
    have himp' : ∀ b ∈ rest, q b = true → p b = true := fun b hb =>
      himp b (List.mem_cons_of_mem _ hb)
    rcases List.mem_cons.mp hx with h | h
    · subst h
      have hsub := filter_length_mono rest p q himp'
      simp [List.filter, hpx, hqx]
      omega
    · have := ih himp' h
      by_cases hqa : q a = true
      · have hpa := himp a (List.mem_cons_self _ _) hqa
        simp [List.filter, hqa, hpa]
        omega
      · simp at hqa
        cases hpa : p a <;> simp [List.filter, hqa, hpa] <;> omega

theorem keysNotSeen_decreases {m : VarMap} {seen : List Nat} {v : Nat} {e : Expr}
    (hv : v ∉ seen) (hl : lookupVar m v = some e) :
    keysNotSeen m (v :: seen) < keysNotSeen m seen := by
  apply filter_length_strict (x := (v, e))
  · intro a _ ha
    simp at ha ⊢
    intro h
    exact absurd h ha.2
  · exact lookupVar_mem hl
  · simpa using hv
  · simp

/-- The `while ((var_node = op.as<VarNode>()))` loop of the inliner's call
case, with explicit fuel so the definition is structurally recursive.  The C++
loop keeps replacing a variable in operator position by its `var_map` image;
because the walk is deterministic, revisiting a variable (the `seen` check)
means the loop runs forever, which is modelled as `none`.  Each successful
step consumes a distinct key of the map, so from an empty `seen` the fuel
`m.length + 1` used by `chase` below can never be exhausted first: `none`
is returned exactly when the C++ loop diverges. -/
def chaseF (m : VarMap) : Nat → List Nat → Expr → Option ChaseRes
  | 0, _, _ => none
  | fuel + 1, seen, Expr.var v =>
    if v ∈ seen then none
    else
      match lookupVar m v with
      | none => some (ChaseRes.unmapped v)
      | some e => chaseF m fuel (v :: seen) e
  | _ + 1, _, Expr.gvar g => some (ChaseRes.nonVar (Expr.gvar g))
  | _ + 1, _, Expr.func ps b p => some (ChaseRes.nonVar (Expr.func ps b p))
  | _ + 1, _, Expr.call op args ty => some (ChaseRes.nonVar (Expr.call op args ty))
  | _ + 1, _, Expr.lett v value body => some (ChaseRes.nonVar (Expr.lett v value body))
  | _ + 1, _, Expr.ite c t e => some (ChaseRes.nonVar (Expr.ite c t e))

/-- The chain-collapsing loop as invoked by the call visitor. -/
def chase (m : VarMap) (seen : List Nat) (e : Expr) : Option ChaseRes :=
  chaseF m (m.length + 1) seen e

mutual

/-- `PrimitiveInliner`'s traversal (an `ExprMutator`).  The three overridden
cases (`LetNode`, `CallNode`, `FunctionNode`) are from
inline_primitives.cc lines 29-78; the remaining cases are the `ExprMutator`
defaults, which are modelled from the spec ("fall back to the default
traversal (recursively rewriting children)", §4.1): the children are rewritten
left to right while `var_map` accumulates.  In the let case the C++ value is
visited once and the second visit performed by `ExprMutator::VisitExpr_` is a
memoisation hit on the same node, so the value is visited once here as well.
`none` models divergence of the alias-chasing loop. -/
def visitE (m : VarMap) : Expr → Option (VarMap × Expr)
  | Expr.var v => some (m, Expr.var v)
  | Expr.gvar g => some (m, Expr.gvar g)
  | Expr.func ps b prim =>
    if prim then some (m, Expr.func ps b prim)
    else do
      let r ← visitE m b
      some (r.1, Expr.func ps r.2 false)
  | Expr.lett v value body => do
    let rv ← visitE m value
    let m2 := insertIfAbsent rv.1 v rv.2
    let rb ← visitE m2 body
    some (rb.1, Expr.lett v rv.2 rb.2)
  | Expr.ite c t e => do
    let rc ← visitE m c
    let rt ← visitE rc.1 t
    let re ← visitE rt.1 e
    some (re.1, Expr.ite rc.2 rt.2 re.2)
  | Expr.call op args ty => do
    let r ← chase m [] op
    match r with
    | ChaseRes.nonVar e =>
      if isPrimLit e then
        -- CallNode::make(GetRef<Function>(func), call->args, ...):
        -- the resolved literal in operator position, the arguments untouched.
        some (m, Expr.call e args ty)
      else if isGvarE e then
        some (m, Expr.call e args ty)
      else do
        let ro ← visitE m op
        let ra ← visitL ro.1 args
        some (ra.1, Expr.call ro.2 ra.2 ty)
    | ChaseRes.unmapped _ => do
      let ro ← visitE m op
      let ra ← visitL ro.1 args
      some (ra.1, Expr.call ro.2 ra.2 ty)

/-- Default `ExprMutator` traversal of a call's argument list, threading
`var_map` left to right. -/
def visitL (m : VarMap) : List Expr → Option (VarMap × List Expr)
  | [] => some (m, [])
  | a :: as => do
    let ra ← visitE m a
    let ras ← visitL ra.1 as
    some (ras.1, ra.2 :: ras.2)

end

mutual

/-- Free variables of an expression (used by dead-code elimination);
`lett` binds its variable in the body, `func` binds its parameters. -/
def fvE : Expr → List Nat
  | Expr.var v => [v]
  | Expr.gvar _ => []
  | Expr.func ps b _ => (fvE b).filter (fun v => decide (v ∉ ps))
  | Expr.call op args _ => fvE op ++ fvL args
  | Expr.lett v value body => fvE value ++ (fvE body).filter (fun w => decide (w ≠ v))
  | Expr.ite c t e => fvE c ++ fvE t ++ fvE e

def fvL : List Expr → List Nat
  | [] => []
  | a :: as => fvE a ++ fvL as

end

mutual

/-- Modelled from the spec: `DeadCodeElimination` is provided by an external
collaborator (§4.1: "run dead-code elimination … on the new body to remove
let-bindings whose sole use was the primitive now inlined").  It is modelled
as the bottom-up removal of let bindings whose variable is unused in the
(already cleaned) body; everything else is rebuilt structurally. -/
def dce : Expr → Expr
  | Expr.var v => Expr.var v
  | Expr.gvar g => Expr.gvar g
  | Expr.func ps b p => Expr.func ps (dce b) p
  | Expr.call op args ty => Expr.call (dce op) (dceL args) ty
  | Expr.lett v value body =>
    let b := dce body
    if v ∈ fvE b then Expr.lett v (dce value) b else b
  | Expr.ite c t e => Expr.ite (dce c) (dce t) (dce e)

def dceL : List Expr → List Expr
  | [] => []
  | a :: as => dce a :: dceL as

end

/-- `PrimitiveInliner::Inline` (inline_primitives.cc lines 80-98): rebuild the
function with the rewritten, dead-code-eliminated body.  The C++ function is
typed on `Function`; module entries are always function literals. -/
def inlineFn (m : VarMap) : Expr → Option (VarMap × Expr)
  | Expr.func ps b p => do
    let r ← visitE m b
    some (r.1, Expr.func ps (dce r.2) p)
  | e => some (m, e)

/-- A module: the insertion-ordered mapping from global names to functions
(spec §3; named `RModule` because `Module` is taken by Mathlib). -/
abbrev RModule := List (Nat × Expr)

/-- The loop of `InlinePrimitives` (inline_primitives.cc lines 116-133): one
`PrimitiveInliner` instance rewrites every function in module order, so its
`var_map` persists across functions; the updates are written back afterwards,
keyed by global name. -/
def inlinePrimsAux (m : VarMap) : RModule → Option RModule
  | [] => some []
  | (g, f) :: rest => do
    let rf ← inlineFn m f
    let rrest ← inlinePrimsAux rf.1 rest
    some ((g, rf.2) :: rrest)

/-- `InlinePrimitives`: run the inliner over the whole module.  `none` models
divergence of the alias-chasing loop on a cyclic alias chain. -/
def InlinePrimitives (mod : RModule) : Option RModule :=
  inlinePrimsAux [] mod

/-! ## Instruction set (vm.cc lines 19-128) -/

/-- The six opcodes (spec §6.1). -/
inductive Opcode where
  | Push
  | Ret
  | AllocTensor
  | InvokePacked
  | If
  | Invoke
deriving DecidableEq, Repr

/-- Operands of `AllocTensor`: the shape array and its dtype (the C++ side
stores a heap `int64_t*` plus `ndim`; here the list carries its length). -/
structure TensorInfo where
  shape : List Int
  dtype : DTy
deriving DecidableEq, Repr

/-- An instruction.  Modelled from the spec (§3: "tagged variant across six
opcodes", declared in the `vm.h` header that is not among the sources): a tag
plus the operand fields used by the constructor helpers and the copy
constructor of vm.cc lines 21-89.  Fields that a given opcode's helper does
not set are uninitialised in C++ and default to `0` here; no code path of the
sources reads such a field except the printer fall-through recorded below,
which only reads fields the `If` helper does set. -/
structure Instruction where
  op : Opcode
  stack_index : Nat := 0
  packed_index : Nat := 0
  arity : Nat := 0
  true_offset : Nat := 0
  false_offset : Nat := 0
  func_index : Nat := 0
  tensor_info : TensorInfo := ⟨[], DTy.float32⟩
deriving DecidableEq, Repr

/-- `Push` constructor helper (vm.cc lines 49-54). -/
def Push (stack_index : Nat) : Instruction :=
  { op := Opcode.Push, stack_index := stack_index }

/-- `Ret` constructor helper (vm.cc lines 56-60). -/
def Ret : Instruction :=
  { op := Opcode.Ret }

/-- `InvokePacked` constructor helper (vm.cc lines 62-68). -/
def InvokePacked (packed_index arity : Nat) : Instruction :=
  { op := Opcode.InvokePacked, packed_index := packed_index, arity := arity }

/-- `AllocTensor` constructor helper (vm.cc lines 70-81). -/
def AllocTensor (shape : List Int) (dtype : DTy) : Instruction :=
  { op := Opcode.AllocTensor, tensor_info := ⟨shape, dtype⟩ }

/-- `If` constructor helper (vm.cc lines 83-89). -/
def If (true_branch false_branch : Nat) : Instruction :=
  { op := Opcode.If, true_offset := true_branch, false_offset := false_branch }

/-- Textual form of a dtype (`TVMType2Type` + the IR type printer, external). -/
def dtyStr : DTy → String
  | DTy.float32 => "float32"
  | DTy.boolT => "bool"
  | DTy.int64 => "int64"

/-- `InstructionPrint` (vm.cc lines 91-128), faithfully including the two
missing `break`s: the `If` case falls through into the `Invoke` case, and the
`Invoke` case prints `instr.false_offset` rather than `instr.func_index`. -/
def InstructionPrint (instr : Instruction) : String :=
  match instr.op with
  | Opcode.Push => "push " ++ toString instr.stack_index
  | Opcode.Ret => "ret"
  | Opcode.InvokePacked =>
    "invoke_packed " ++ toString instr.packed_index ++ " " ++ toString instr.arity
  | Opcode.AllocTensor =>
    "alloc_tensor(" ++ String.join (instr.tensor_info.shape.map (fun d => toString d ++ ", "))
      ++ ") " ++ dtyStr instr.tensor_info.dtype
  | Opcode.If =>
    "if " ++ toString instr.true_offset ++ " " ++ toString instr.false_offset
      ++ "invoke " ++ toString instr.false_offset
  | Opcode.Invoke => "invoke " ++ toString instr.false_offset

/-! ## Bytecode compiler (vm.cc lines 137-284) -/

/-- The `CHECK`/`LOG(FATAL)` failures the compiler can raise, one per check
site of `VMCompiler`, `CompileFunc` and its `ExprFunctor` default. -/
inductive CompileErr where
  | varNotFound
  | opNotFunction
  | notTensorType
  | opNotPrimitive
  | arityCap
  | nestedFunction
  | unsupportedNode
deriving DecidableEq, Repr

/-- Lookup in the compiler's `var_map` (variable id to stack slot). -/
def lookupSlot (m : List (Nat × Nat)) (v : Nat) : Option Nat :=
  match m with
  | [] => none
  | (w, i) :: rest => if w = v then some i else lookupSlot rest v

/-- `std::unordered_map::insert` for the compiler's `var_map`. -/
def insertSlot (m : List (Nat × Nat)) (v i : Nat) : List (Nat × Nat) :=
  match lookupSlot m v with
  | some _ => m
  | none => (v, i) :: m

/-- `VMCompiler`'s mutable state (vm.cc lines 137-147).  The lowered kernels
are represented by the primitive function expressions handed to the external
lowering engine (`CompileEngine::Lower`), which per the spec's kernel-oracle
contract (§6.4) returns exactly one kernel for each of them. -/
structure CompState where
  instructions : List Instruction
  var_map : List (Nat × Nat)
  stack_index : Nat
  seen_func : Bool
  lowered_funcs : List Expr
deriving DecidableEq

/-- `VMCompiler()` constructor state. -/
def initComp : CompState :=
  { instructions := [], var_map := [], stack_index := 0,
    seen_func := false, lowered_funcs := [] }

/-- The if back-patch (vm.cc lines 169-172): overwrite the offset fields of
the placeholder at position `p`. -/
def patchIf (l : List Instruction) (p : Nat) (fo : Nat) : List Instruction :=
  match l[p]? with
  | some ins => l.set p { ins with true_offset := 1, false_offset := fo }
  | none => l

/-- Bind the function's parameters to consecutive stack slots
(vm.cc lines 224-226); `stack_index++` is evaluated even when the insert
finds the key present. -/
def bindParams (m : List (Nat × Nat)) (idx : Nat) : List Nat → List (Nat × Nat) × Nat
  | [] => (m, idx)
  | p :: ps => bindParams (insertSlot m p idx) (idx + 1) ps

mutual

/-- `VMCompiler::VisitExpr_` dispatch (vm.cc lines 153-229).  `GlobalVar` and
`Let` nodes have no visitor and hit the `ExprFunctor` fatal default. -/
def compileVisit (s : CompState) : Expr → Except CompileErr CompState
  | Expr.var v =>
    match lookupSlot s.var_map v with
    | none => Except.error CompileErr.varNotFound
    | some idx => Except.ok { s with instructions := s.instructions ++ [Push idx] }
  | Expr.ite c t e => do
    let s1 ← compileVisit s c
    let after_cond := s1.instructions.length
    let s2 ← compileVisit { s1 with instructions := s1.instructions ++ [If 0 0] } t
    let after_true := s2.instructions.length
    let s3 ← compileVisit s2 e
    Except.ok { s3 with
      instructions := patchIf s3.instructions after_cond (after_true - after_cond) }
  | Expr.call op args ty =>
    match op with
    | Expr.func ps _ prim => do
      let s1 ← compileArgs s args
      match ty with
      | Ty.tensorTy shape dtype =>
        let s2 := { s1 with instructions := s1.instructions ++ [AllocTensor shape dtype] }
        if prim then
          let op_index := s2.lowered_funcs.length
          let s3 := { s2 with lowered_funcs := s2.lowered_funcs ++ [op] }
          let arity := ps.length + 1
          if arity < 10 then
            Except.ok { s3 with instructions := s3.instructions ++ [InvokePacked op_index arity] }
          else Except.error CompileErr.arityCap
        else Except.error CompileErr.opNotPrimitive
      | _ => Except.error CompileErr.notTensorType
    | _ => Except.error CompileErr.opNotFunction
  | Expr.func ps b _ =>
    if s.seen_func then Except.error CompileErr.nestedFunction
    else
      compileVisit
        { s with seen_func := true,
                 var_map := (bindParams s.var_map s.stack_index ps).1,
                 stack_index := (bindParams s.var_map s.stack_index ps).2 } b
  | Expr.gvar _ => Except.error CompileErr.unsupportedNode
  | Expr.lett _ _ _ => Except.error CompileErr.unsupportedNode

/-- Argument compilation, left to right (vm.cc lines 183-185). -/
def compileArgs (s : CompState) : List Expr → Except CompileErr CompState
  | [] => Except.ok s
  | a :: as => do
    let s1 ← compileVisit s a
    compileArgs s1 as

end

/-- A compiled VM function: parameter count plus instructions. -/
structure VMFunction where
  params : Nat
  instructions : List Instruction
deriving DecidableEq, Repr

/-- `CompileFunc` (vm.cc lines 253-260): fresh compiler state, visit the
function node, append `Ret`; results are the accumulated kernels and the VM
function. -/
def CompileFunc (f : Expr) : Except CompileErr (List Expr × VMFunction) := do
  let params :=
    match f with
    | Expr.func ps _ _ => ps.length
    | _ => 0
  let s ← compileVisit initComp f
  Except.ok (s.lowered_funcs, ⟨params, s.instructions ++ [Ret]⟩)

/-! ## Interpreter (vm.cc lines 286-481) -/

/-- A tensor value: shape, dtype and buffer contents.  Buffer elements are
modelled as `Int` words; the reference-counted sharing of device buffers is
not modelled — the only in-place write the sources perform goes into the
freshly allocated output buffer of a kernel call, which the embedding applies
to the stack slot holding that buffer. -/
structure NDArr where
  shape : List Int
  dtype : DTy
  data : List Int
deriving DecidableEq, Repr

/-- `VMObject` — tagged variant; only the tensor variant is populated by the
sources, and `VMObject()` (the default-constructed placeholder pushed by
`InvokeGlobal`) is the empty variant. -/
inductive VMObject where
  | vnone
  | vtensor (t : NDArr)
deriving DecidableEq, Repr

/-- A packed kernel: given the `n` argument tensors (output buffer last), it
produces the contents the kernel writes into that output buffer.  Kernels
return synchronously (spec §5). -/
abbrev PackedFn := List NDArr → NDArr

/-- `VMFrame(ret_pc, bp, func_index, arg_count, code)` (spec §3). -/
structure VMFrame where
  pc : Nat
  bp : Nat
  func_index : Nat
  args : Nat
  code : List Instruction
deriving DecidableEq, Repr

/-- The `VirtualMachine` state: function table, kernel table, frame stack,
value stack, and the current registers.  A default-constructed machine has
empty tables and zeroed registers. -/
structure VMachine where
  functions : List VMFunction := []
  packed_funcs : List PackedFn := []
  frames : List VMFrame := []
  stack : List VMObject := []
  pc : Nat := 0
  bp : Nat := 0
  func_index : Nat := 0
  code : List Instruction := []

/-- `ToNDArray`: fatal on a non-tensor object. -/
def toNDArray : VMObject → Option NDArr
  | VMObject.vtensor t => some t
  | VMObject.vnone => none

/-- The free function `InvokePacked(func, arg_count, stack)` (vm.cc lines
338-360): check `arg_count <= stack.size()`, collect the top `arg_count`
values as tensors, call the kernel — which writes its result into the last
argument's buffer, i.e. the top stack slot — then collapse with
`stack[size - n] = stack[size - 1]; stack.resize(size - n + 1)`.
`arg_count = 0` would index `stack[size]`, undefined behaviour. -/
def invokePackedFn (f : PackedFn) (n : Nat) (stack : List VMObject) :
    Option (List VMObject) :=
  if n = 0 then none
  else if n ≤ stack.length then
    match (stack.drop (stack.length - n)).mapM toNDArray with
    | none => none
    | some args =>
      let out := VMObject.vtensor (f args)
      let stack1 := stack.set (stack.length - 1) out
      let stack2 := stack1.set (stack.length - n) out
      some (stack2.take (stack.length - n + 1))
  else none

/-- `VirtualMachine::PopFrame` (vm.cc lines 292-315).  The C++ bound check
`CHECK(stack_size - fr.args - 1 < stack_size)` is on `size_t`, so it fails
exactly when `fr.args + 1 > stack_size` (the subtraction wraps); the second
check `0 <= stack_size - fr.args - 1` is identically true on `size_t`.
Returns the frame-stack depth measured before the pop, as the C++ does. -/
def popFrame (m : VMachine) : Option (Nat × VMachine) :=
  match m.frames.getLast? with
  | none => none
  | some fr =>
    let L := m.stack.length
    if fr.args + 1 ≤ L then
      match m.stack.getLast? with
      | none => none
      | some top =>
        some (m.frames.length,
          { m with
            stack := (m.stack.set (L - fr.args - 1) top).take (L - fr.args),
            bp := fr.bp, pc := fr.pc, func_index := fr.func_index,
            code := fr.code, frames := m.frames.dropLast })
    else none

/-- One dispatch of `VirtualMachine::Run`'s switch: either a state to continue
from, or — for `Ret` — the pre-pop frame depth together with the restored
state. -/
inductive StepRes where
  | cont (m : VMachine)
  | ret (k : Nat) (m : VMachine)

/-- One iteration of the dispatch loop (vm.cc lines 366-446).  `Invoke` is
`LOG(FATAL)`.  For `If`, the condition must be a tensor of dtype bool and its
byte 0 decides the branch (reading byte 0 of an empty buffer is undefined).
`AllocTensor` pushes a fresh tensor; `NDArray::Empty` leaves the buffer
uninitialised, modelled as zero-filled — no claim reads it before a kernel
writes it. -/
def execInstr (m : VMachine) : Option StepRes :=
  match m.code.get? m.pc with
  | none => none
  | some instr =>
    match instr.op with
    | Opcode.Invoke => none
    | Opcode.InvokePacked =>
      match m.packed_funcs.get? instr.packed_index with
      | none => none
      | some f =>
        match invokePackedFn f instr.arity m.stack with
        | none => none
        | some stack' => some (StepRes.cont { m with stack := stack', pc := m.pc + 1 })
    | Opcode.If =>
      match m.stack.getLast? with
      | none => none
      | some cond =>
        match toNDArray cond with
        | none => none
        | some arr =>
          if arr.dtype = DTy.boolT then
            match arr.data.head? with
            | none => none
            | some b =>
              if b ≠ 0 then
                some (StepRes.cont
                  { m with stack := m.stack.dropLast, pc := m.pc + instr.true_offset })
              else
                some (StepRes.cont
                  { m with stack := m.stack.dropLast, pc := m.pc + instr.false_offset })
          else none
    | Opcode.AllocTensor =>
      let sh := instr.tensor_info.shape
      let numel := (sh.foldl (fun a d => a * d) 1).toNat
      some (StepRes.cont
        { m with
          stack := m.stack ++
            [VMObject.vtensor ⟨sh, instr.tensor_info.dtype, List.replicate numel 0⟩],
          pc := m.pc + 1 })
    | Opcode.Push =>
      if m.bp + instr.stack_index < m.stack.length then
        match m.stack.get? (m.bp + instr.stack_index) with
        | none => none
        | some v =>
          some (StepRes.cont { m with stack := m.stack ++ [v], pc := m.pc + 1 })
      else none
    | Opcode.Ret =>
      match popFrame m with
      | none => none
      | some km => some (StepRes.ret km.1 km.2)

/-- The dispatch loop proper: run until a `Ret` pops the frame whose pre-pop
depth equals `stack_start` (the frame depth at `Run` entry), vm.cc lines
431-443.  `fuel` bounds the number of dispatches; `none` is exhaustion or a
fatal error. -/
def runLoop : Nat → Nat → VMachine → Option VMachine
  | 0, _, _ => none
  | fuel + 1, ss, m =>
    match execInstr m with
    | none => none
    | some (StepRes.cont m') => runLoop fuel ss m'
    | some (StepRes.ret k m') => if k = ss then some m' else runLoop fuel ss m'

/-- `VirtualMachine::Run` (vm.cc lines 362-447): record
`stack_start = frames.size()`, reset `pc = 0`, loop. -/
def runVM (fuel : Nat) (m : VMachine) : Option VMachine :=
  runLoop fuel m.frames.length { m with pc := 0 }

/-- `VirtualMachine::InvokeGlobal` (vm.cc lines 317-329) together with the
`PushFrame` it performs: push a placeholder return slot and the arguments,
push a frame recording `pc + 1`, `bp`, `func_index`, the function's parameter
count and the current code, then point the machine at the function.  The
`CHECK(stack_start + func.params + 1 == stack.size())` fails exactly when the
argument count differs from the parameter count. -/
def invokeGlobal (m : VMachine) (f : VMFunction) (args : List VMObject) :
    Option VMachine :=
  if args.length = f.params then
    some { m with
      stack := m.stack ++ VMObject.vnone :: args,
      frames := m.frames ++ [⟨m.pc + 1, m.bp, m.func_index, f.params, m.code⟩],
      code := f.instructions,
      pc := 0,
      bp := m.stack.length + 1 + args.length - f.params }
  else none

/-- `VirtualMachine::Invoke` (vm.cc lines 331-336): `InvokeGlobal`, `Run`,
and return `stack.back()` along with the final machine. -/
def InvokeVM (fuel : Nat) (m : VMachine) (f : VMFunction) (args : List VMObject) :
    Option (VMachine × VMObject) := do
  let m1 ← invokeGlobal m f args
  let m2 ← runVM fuel m1
  match m2.stack.getLast? with
  | none => none
  | some r => some (m2, r)

/-- The compile-every-function loop of `CompileModule` (vm.cc lines 262-284),
returning the function table and the concatenated module-wide kernel list. -/
def compileFuncs : RModule → Except CompileErr (List VMFunction × List Expr)
  | [] => Except.ok ([], [])
  | (_, f) :: rest => do
    let cf ← CompileFunc f
    let crest ← compileFuncs rest
    Except.ok (cf.2 :: crest.1, cf.1 ++ crest.2)

/-- `CompileModule` (vm.cc lines 262-284): compile each function in module
order, concatenate the per-function kernel lists into the module kernel table,
and materialise packed callables through the external backend build step,
modelled by the `build` parameter (spec §6.4: one packed callable per kernel,
in order). -/
def CompileModule (build : Expr → PackedFn) (mod : RModule) :
    Except CompileErr VMachine := do
  let c ← compileFuncs mod
  Except.ok { functions := c.1, packed_funcs := c.2.map build }

/-- The registered host entry point `relay._runtime._testeval` (vm.cc lines
449-481) on a module argument: compile the module directly with
`CompileModule` (no inlining pass), invoke `vm.functions[0]` on the tensor
arguments, and return the result as a tensor.  Indexing `functions[0]` of an
empty table is undefined behaviour, modelled as `none`. -/
def testeval (build : Expr → PackedFn) (fuel : Nat) (mod : RModule)
    (args : List NDArr) : Option NDArr :=
  match CompileModule build mod with
  | Except.error _ => none
  | Except.ok vm =>
    match vm.functions.get? 0 with
    | none => none
    | some f =>
      match InvokeVM fuel vm f (args.map VMObject.vtensor) with
      | none => none
      | some r => toNDArray r.2

/-- The entry point on a function-expression argument.  Modelled from the
spec: `ModuleNode::FromExpr` (external) wraps a bare function into a
single-function module, which is then evaluated like any module. -/
def testevalFn (build : Expr → PackedFn) (fuel : Nat) (f : Expr)
    (args : List NDArr) : Option NDArr :=
  testeval build fuel [(0, f)] args

/-! ## Concrete programs used by the claims -/

/-- The identity function `fn(x : Tensor[2,2] float32) { x }` (spec §8,
scenario 1). -/
def idFn : Expr := Expr.func [0] (Expr.var 0) false

/-- Its expected compiled form: `push 0; ret` with one parameter. -/
def idVMF : VMFunction := ⟨1, [Push 0, Ret]⟩

/-- The 2×2 input matrix `[[1,2],[3,4]]` of scenario 1. -/
def t0 : NDArr := ⟨[2, 2], DTy.float32, [1, 2, 3, 4]⟩

/-- A primitive identity-like function literal used as an inlinable kernel. -/
def primId : Expr := Expr.func [5] (Expr.var 5) true

mutual

/-- Does some call in the expression have a variable in operator position? -/
def hasVarOpE : Expr → Bool
  | Expr.var _ => false
  | Expr.gvar _ => false
  | Expr.func _ b _ => hasVarOpE b
  | Expr.call op args _ =>
    (match op with | Expr.var _ => true | _ => false)
      || hasVarOpE op || hasVarOpL args
  | Expr.lett _ value body => hasVarOpE value || hasVarOpE body
  | Expr.ite c t e => hasVarOpE c || hasVarOpE t || hasVarOpE e

/-- List version of `hasVarOpE`. -/
def hasVarOpL : List Expr → Bool
  | [] => false
  | a :: as => hasVarOpE a || hasVarOpL as

end

/-- Does some call in some function of the module have a variable in operator
position? -/
def moduleHasVarOp (mod : RModule) : Bool :=
  mod.any (fun p => hasVarOpE p.2)

/-- A higher-order module `main = fn(f, x) { f(x) }`: the operator `f` is a
function parameter, not a let-bound alias, so the inliner cannot resolve it. -/
def hoMod : RModule :=
  [(0, Expr.func [10, 11]
    (Expr.call (Expr.var 10) [Expr.var 11] (Ty.tensorTy [4] DTy.float32)) false)]

/-- A module whose only interesting binding has a nested let as its bound
value: `main = fn(x4) { let w1 = primId; let v3 = (let u2 = G9; w1); v3(x4) }`.
Dead-code elimination collapses `v3`'s value to the alias `w1`, which the
second inliner pass then resolves further. -/
def c7Mod : RModule :=
  [(0, Expr.func [4]
    (Expr.lett 1 primId
      (Expr.lett 3 (Expr.lett 2 (Expr.gvar 9) (Expr.var 1))
        (Expr.call (Expr.var 3) [Expr.var 4] (Ty.tensorTy [4] DTy.float32)))) false)]

/-- The arity-cap family (spec §8, scenario 6): a function of `k` tensor
parameters whose body calls a primitive of `k` parameters on all of them. -/
def arityProg (k : Nat) : Expr :=
  Expr.func (List.range k)
    (Expr.call (Expr.func ((List.range k).map (fun i => k + i)) (Expr.var k) true)
      ((List.range k).map Expr.var) (Ty.tensorTy [4] DTy.float32))
    false

/-! ## C8: the instruction printer -/

/-- C8: the claim states that the printer emits exactly `if <t> <f>` for an
`If` instruction and `invoke <i>` (the function index) for an `Invoke`.  The
code's `switch` (vm.cc lines 118-126) is missing both `break`s: the `If` case
falls through into the `Invoke` case, which moreover prints
`instr.false_offset`.  Printing the back-patched conditional `If 1 2`
therefore yields `"if 1 2invoke 2"`, not `"if 1 2"`; both printed fields are
ones the `If` constructor helper set, so the output is well defined and
contradicts the documented format — a slip in the code, not in the spec. -/
theorem C8_if_print_falls_through :
    InstructionPrint (If 1 2) = "if 1 2invoke 2" := by rfl

/-! ## C5: the identity scenario -/

/-- C5: compiling `fn(x : Tensor[2,2] float32) { x }` yields exactly
`push 0; ret` (with one parameter), and invoking the compiled function on any
tensor argument returns that tensor. -/
theorem C5_identity_compile_and_run :
    CompileFunc idFn = Except.ok ([], idVMF) ∧
    ∀ t : NDArr,
      (InvokeVM 10 {} idVMF [VMObject.vtensor t]).map Prod.snd =
        some (VMObject.vtensor t) := by
  exact ⟨rfl, fun t => rfl⟩

/-! ## C2: the return-slot discipline -/

/-- C2 counterexample: invoking the compiled identity function on the
scenario-1 matrix starts from an empty value stack; were the claim true, the
final stack would be exactly one slot high and hold the result, i.e.
`[vtensor t0]`.  The machine instead ends with `[vnone, vtensor t0]`: the
reserved return slot still holds the placeholder pushed by `InvokeGlobal`
(the result was copied into slot `bp`, one above it) and the stack has grown
by two slots. -/
theorem C2_counterexample :
    (InvokeVM 10 {} idVMF [VMObject.vtensor t0]).map (fun r => r.1.stack) =
      some [VMObject.vnone, VMObject.vtensor t0] ∧
    (InvokeVM 10 {} idVMF [VMObject.vtensor t0]).map (fun r => r.1.stack) ≠
      some [VMObject.vtensor t0] := by
  exact ⟨rfl, by decide⟩

/-! ## List helpers for the stack lemmas -/

theorem take_set_succ {α : Type} (l : List α) (i : Nat) (x : α) (h : i < l.length) :
    (l.set i x).take (i + 1) = l.take i ++ [x] := by
  induction l generalizing i with
  | nil => simp at h
  | cons a as ih =>
    cases i with
    | zero => simp
    | succ n =>
      have hn : n < as.length := by simpa using h
      simp [ih n hn]

theorem take_set_of_le {α : Type} (l : List α) (i j : Nat) (x : α) (h : i ≤ j) :
    (l.set j x).take i = l.take i := by
  induction l generalizing i j with
  | nil => simp
  | cons a as ih =>
    cases j with
    | zero =>
      cases i with
      | zero => simp
      | succ k => exact absurd h (by omega)
    | succ n =>
      cases i with
      | zero => simp
      | succ k => simp [ih k n (by omega)]

theorem take_one_set_zero {α : Type} (x : α) :
    ∀ B : List α, B ≠ [] → (B.set 0 x).take 1 = [x]
  | [], h => absurd rfl h
  | _ :: _, _ => rfl

/-! ## C2 (amended): what `Ret` really does to the stack -/

/-- C2 (amended): for a call executed under the `InvokeGlobal` convention —
stack on entry is the caller's stack `pre`, then the placeholder return slot,
then the arguments, so `bp = pre.length + 1` — when `Ret` fires with the
result `v` as the single value above the arguments, `PopFrame` copies `v`
into the slot `stack.size() − args − 1`.  That slot is `bp` — the FIRST
ARGUMENT slot, one above the reserved return slot `bp − 1` — and after the
shrink the stack is `pre ++ [placeholder, v]`: exactly TWO slots higher than
before the call, the top slot holding the result and the reserved slot still
holding the untouched placeholder.  The registers are restored from the
popped frame and the pre-pop frame depth is returned. -/
theorem C2_ret_copies_to_first_arg_slot (fns : List VMFunction)
    (pks : List PackedFn) (fs : List VMFrame) (fr : VMFrame)
    (pre argvals : List VMObject) (v : VMObject) (pc bp fi : Nat)
    (code : List Instruction) (hargs : fr.args = argvals.length) :
    popFrame ⟨fns, pks, fs ++ [fr], pre ++ VMObject.vnone :: (argvals ++ [v]),
        pc, bp, fi, code⟩ =
      some (fs.length + 1,
        ⟨fns, pks, fs, pre ++ [VMObject.vnone, v],
         fr.pc, fr.bp, fr.func_index, fr.code⟩) := by
  have hS : pre ++ VMObject.vnone :: (argvals ++ [v]) =
      (pre ++ [VMObject.vnone]) ++ (argvals ++ [v]) := by simp
  have hlen : (pre ++ VMObject.vnone :: (argvals ++ [v])).length =
      pre.length + 1 + (argvals.length + 1) := by simp; omega
  have hlast : (pre ++ VMObject.vnone :: (argvals ++ [v])).getLast? = some v := by
    rw [show pre ++ VMObject.vnone :: (argvals ++ [v]) =
        (pre ++ VMObject.vnone :: argvals) ++ [v] from by simp]
    exact List.getLast?_concat _
  unfold popFrame
  simp only [List.getLast?_concat]
  rw [if_pos (by rw [hargs, hlen]; omega)]
  simp only [hlast]
  simp only [Option.some.injEq, Prod.mk.injEq, VMachine.mk.injEq]
  simp [List.dropLast_concat]
  have hB : pre.length + (argvals.length + 1 + 1) - fr.args - 1 =
      (pre ++ [VMObject.vnone]).length := by
    simp [hargs]; omega
  have hA : pre.length + (argvals.length + 1 + 1) - fr.args =
      (pre ++ [VMObject.vnone]).length + 1 := by
    simp [hargs]; omega
  rw [hB, hA, hS, List.set_append, if_neg (by simp), Nat.sub_self, List.take_append,
    take_one_set_zero v (argvals ++ [v]) (by simp)]
  simp

/-! ## C3: InvokePacked -/

/-- C3: executing `InvokePacked(i, n)` with at least `n` values on the stack
(all tensors, and `n ≥ 1` — `n = 0` would make the C++ collapse write out of
bounds) calls kernel `i` on the top `n` values; the kernel writes its result
into the last argument (the top slot), the slot `n`-from-the-top is
overwritten with that top value, and the stack shrinks by `n − 1`: the final
stack is the old stack below the arguments plus the single result slot, its
length is `old − (n − 1)`, and the program counter advances by 1. -/
theorem C3_invokePacked_step (m : VMachine) (instr : Instruction) (f : PackedFn)
    (args : List NDArr)
    (hfetch : m.code.get? m.pc = some instr)
    (hop : instr.op = Opcode.InvokePacked)
    (hf : m.packed_funcs.get? instr.packed_index = some f)
    (h1 : 1 ≤ instr.arity)
    (hle : instr.arity ≤ m.stack.length)
    (hargs : (m.stack.drop (m.stack.length - instr.arity)).mapM toNDArray = some args) :
    execInstr m = some (StepRes.cont { m with
        stack := m.stack.take (m.stack.length - instr.arity) ++
          [VMObject.vtensor (f args)],
        pc := m.pc + 1 }) ∧
    (m.stack.take (m.stack.length - instr.arity) ++
        [VMObject.vtensor (f args)]).length =
      m.stack.length - (instr.arity - 1) := by
  constructor
  · have hstep : invokePackedFn f instr.arity m.stack =
        some (m.stack.take (m.stack.length - instr.arity) ++
          [VMObject.vtensor (f args)]) := by
      unfold invokePackedFn
      rw [if_neg (by omega), if_pos hle, hargs]
      simp only [Option.some.injEq]
      have hlt : m.stack.length - instr.arity <
          (m.stack.set (m.stack.length - 1) (VMObject.vtensor (f args))).length := by
        simp; omega
      have heq : m.stack.length - instr.arity + 1 =
          (m.stack.length - instr.arity) + 1 := rfl
      rw [heq, take_set_succ _ _ _ hlt]
      rw [take_set_of_le _ _ _ _ (by omega)]
    unfold execInstr
    rw [hfetch]
    simp only [hop, hf, hstep]
  · simp
    omega

/-! ## C10: non-Ret instructions preserve the frame state -/

/-- C10: whenever the dispatch loop executes an instruction and continues —
which happens exactly for `Push`, `AllocTensor`, `InvokePacked` and `If`
(`Invoke` is fatal and `Ret` produces the frame-popping outcome) — the frame
stack, the base pointer, the current function index and the current code
pointer are all unchanged; those steps only touch the value stack and the
program counter. -/
theorem C10_non_ret_preserves_frame_state (m m' : VMachine)
    (h : execInstr m = some (StepRes.cont m')) :
    m'.frames = m.frames ∧ m'.bp = m.bp ∧ m'.func_index = m.func_index ∧
      m'.code = m.code := by
  unfold execInstr at h
  split at h
  · exact absurd h (by simp)
  · split at h
    · exact absurd h (by simp)
    · split at h
      · exact absurd h (by simp)
      · split at h
        · exact absurd h (by simp)
        · simp only [Option.some.injEq, StepRes.cont.injEq] at h
          subst h
          exact ⟨rfl, rfl, rfl, rfl⟩
    · split at h
      · exact absurd h (by simp)
      · split at h
        · exact absurd h (by simp)
        · split at h
          · split at h
            · exact absurd h (by simp)
            · split at h
              · simp only [Option.some.injEq, StepRes.cont.injEq] at h
                subst h
                exact ⟨rfl, rfl, rfl, rfl⟩
              · simp only [Option.some.injEq, StepRes.cont.injEq] at h
                subst h
                exact ⟨rfl, rfl, rfl, rfl⟩
          · exact absurd h (by simp)
    · simp only [Option.some.injEq, StepRes.cont.injEq] at h
      subst h
      exact ⟨rfl, rfl, rfl, rfl⟩
    · split at h
      · split at h
        · exact absurd h (by simp)
        · simp only [Option.some.injEq, StepRes.cont.injEq] at h
          subst h
          exact ⟨rfl, rfl, rfl, rfl⟩
      · exact absurd h (by simp)
    · split at h
      · exact absurd h (by simp)
      · exact absurd h (by simp)

/-! ## C1: the inliner invariant -/

/-- C1 counterexample: the claim asserts that after `InlinePrimitives` no call
in any reachable function body has a variable in operator position, for ANY
module.  The higher-order module `main = fn(f, x) { f(x) }` refutes it: `f`
is a function parameter, so it is never in the inliner's let-bound `var_map`,
the chain-collapsing loop exits immediately and the default traversal leaves
`f` in operator position.  The inliner terminates and returns the module
unchanged, with the variable operator still present. -/
theorem C1_counterexample :
    (InlinePrimitives hoMod).map moduleHasVarOp = some true := by decide

/-- C1 (amended): the inliner establishes the invariant exactly for
resolvable operators: whenever a call's operator chain-collapses through the
let-bound-variable map to a primitive function literal, the visited call is
rewritten to carry that literal in operator position (leaving the arguments
and the map untouched).  A call whose operator is a variable that does not
resolve through let bindings — e.g. a function parameter — keeps the variable
in operator position, so the unrestricted module-wide invariant does not
hold. -/
theorem C1_resolved_operator_rewritten (m : VarMap) (op : Expr) (args : List Expr)
    (ty : Ty) (ps : List Nat) (b : Expr)
    (h : chase m [] op = some (ChaseRes.nonVar (Expr.func ps b true))) :
    visitE m (Expr.call op args ty) =
      some (m, Expr.call (Expr.func ps b true) args ty) := by
  unfold visitE
  rw [h]
  simp [isPrimLit]

/-- Closed instance of `C1_resolved_operator_rewritten`: the let-bound alias
`v0 ↦ primId` is chain-collapsed and inlined into operator position. -/
theorem C1_resolved_operator_rewritten_witness :
    chase [(0, primId)] [] (Expr.var 0) =
      some (ChaseRes.nonVar (Expr.func [5] (Expr.var 5) true)) ∧
    visitE [(0, primId)] (Expr.call (Expr.var 0) [Expr.var 4] Ty.otherTy) =
      some ([(0, primId)],
        Expr.call (Expr.func [5] (Expr.var 5) true) [Expr.var 4] Ty.otherTy) :=
  ⟨by decide, C1_resolved_operator_rewritten _ _ _ _ _ _ (by decide)⟩

/-! ## C7: inliner idempotence -/

/-- C7 counterexample: applying `InlinePrimitives` twice to `c7Mod` does not
equal applying it once.  In the first pass the operator `v3` chain-collapses
to the non-variable value `let u2 = G9; w1`, so the call is left alone; then
dead-code elimination collapses that value to the bare alias `w1`.  The
second pass resolves `v3 ↦ w1 ↦ primId` and inlines the call, so the module
keeps changing. -/
theorem C7_counterexample :
    (InlinePrimitives c7Mod).bind InlinePrimitives ≠ InlinePrimitives c7Mod := by
  decide

/-! ## C4: conditional back-patching -/

theorem bindE_ok {e a b : Type} {x : Except e a} {f : a → Except e b} {r : b}
    (h : (x >>= f) = Except.ok r) : ∃ v, x = Except.ok v ∧ f v = Except.ok r := by
  cases x with
  | error err => exact absurd h (by simp [Bind.bind, Except.bind])
  | ok v => exact ⟨v, rfl, by simpa [Bind.bind, Except.bind] using h⟩

theorem patchIf_length (l : List Instruction) (p fo : Nat) :
    (patchIf l p fo).length = l.length := by
  unfold patchIf
  split <;> simp

theorem patchIf_get_lt (l : List Instruction) (p fo i : Nat) (h : i ≠ p) :
    (patchIf l p fo)[i]? = l[i]? := by
  unfold patchIf
  split
  · exact List.getElem?_set_ne (h := fun he => h he.symm)
  · rfl

theorem patchIf_get_at (l : List Instruction) (p fo : Nat) (ins : Instruction)
    (h : l[p]? = some ins) :
    (patchIf l p fo)[p]? = some { ins with true_offset := 1, false_offset := fo } := by
  unfold patchIf
  split
  · rename_i ins' h'
    rw [h'] at h
    cases h
    exact List.getElem?_set_eq (List.getElem?_eq_some_iff.mp h').choose
  · rename_i h'
    rw [h'] at h
    cases h

mutual

theorem compileVisit_extends : ∀ (e : Expr) (s s' : CompState),
    compileVisit s e = Except.ok s' →
    s.instructions.length ≤ s'.instructions.length ∧
    ∀ i, i < s.instructions.length → s'.instructions[i]? = s.instructions[i]?
  | Expr.var v, s, s', h => by
    unfold compileVisit at h
    split at h
    · cases h
    · cases h
      refine ⟨by simp, fun i hi => ?_⟩
      simp [List.getElem?_append_left hi]
  | Expr.gvar g, s, s', h => by cases h
  | Expr.lett v value body, s, s', h => by cases h
  | Expr.func ps b prim, s, s', h => by
    unfold compileVisit at h
    split at h
    · cases h
    · have ih := compileVisit_extends _ _ _ h
      exact ih
  | Expr.ite c t e, s, s', h => by
    unfold compileVisit at h
    obtain ⟨s1, hc, h⟩ := bindE_ok h
    obtain ⟨s2, ht, h⟩ := bindE_ok h
    obtain ⟨s3, he, h⟩ := bindE_ok h
    cases h
    have ih1 := compileVisit_extends c s s1 hc
    have ih2 := compileVisit_extends t _ s2 ht
    have ih3 := compileVisit_extends e s2 s3 he
    simp only [List.length_append, List.length_cons, List.length_nil] at ih2
    refine ⟨?_, fun i hi => ?_⟩
    · simp only [patchIf_length]
      omega
    · have hip : i ≠ s1.instructions.length := by omega
      rw [patchIf_get_lt _ _ _ _ hip]
      rw [ih3.2 i (by omega)]
      rw [ih2.2 i (by simp; omega)]
      rw [List.getElem?_append_left (by omega)]
      exact ih1.2 i hi
  | Expr.call op args ty, s, s', h => by
    cases op with
    | var v => cases h
    | gvar g => cases h
    | call o a t => cases h
    | lett a b c => cases h
    | ite a b c => cases h
    | func ps b prim =>
      cases ty with
      | otherTy =>
        replace h : (do
          let s1 ← compileArgs s args
          (Except.error CompileErr.notTensorType : Except CompileErr CompState))
            = Except.ok s' := h
        obtain ⟨s1, ha, h⟩ := bindE_ok h
        cases h
      | tensorTy shape dtype =>
        cases prim with
        | false =>
          replace h : (do
            let s1 ← compileArgs s args
            (Except.error CompileErr.opNotPrimitive : Except CompileErr CompState))
              = Except.ok s' := h
          obtain ⟨s1, ha, h⟩ := bindE_ok h
          cases h
        | true =>
          replace h : (do
            let s1 ← compileArgs s args
            if ps.length + 1 < 10 then
              Except.ok { s1 with
                instructions := s1.instructions ++ [AllocTensor shape dtype] ++
                  [InvokePacked s1.lowered_funcs.length (ps.length + 1)],
                lowered_funcs := s1.lowered_funcs ++ [Expr.func ps b true] }
            else Except.error CompileErr.arityCap) = Except.ok s' := h
          obtain ⟨s1, ha, h⟩ := bindE_ok h
          have ih1 := compileArgs_extends args s s1 ha
          by_cases harity : ps.length + 1 < 10
          · rw [if_pos harity] at h
            cases h
            refine ⟨by simp; omega, fun i hi => ?_⟩
            rw [List.getElem?_append_left (by simp; omega)]
            rw [List.getElem?_append_left (by omega)]
            exact ih1.2 i hi
          · rw [if_neg harity] at h
            cases h

theorem compileArgs_extends : ∀ (l : List Expr) (s s' : CompState),
    compileArgs s l = Except.ok s' →
    s.instructions.length ≤ s'.instructions.length ∧
    ∀ i, i < s.instructions.length → s'.instructions[i]? = s.instructions[i]?
  | [], s, s', h => by
    cases h
    exact ⟨le_refl _, fun i _ => rfl⟩
  | a :: as, s, s', h => by
    unfold compileArgs at h
    obtain ⟨s1, ha, h⟩ := bindE_ok h
    have ih1 := compileVisit_extends a s s1 ha
    have ih2 := compileArgs_extends as s1 s' h
    refine ⟨by omega, fun i hi => ?_⟩
    rw [ih2.2 i (by omega)]
    exact ih1.2 i hi

end

/-- C4: compiling a conditional emits the condition, a placeholder `If 0 0`
at position `p` (the instruction count after the condition), the true branch,
then the false branch, and finally back-patches the placeholder with
`true_offset = 1` and `false_offset = q − p`, where `q` is the instruction
count recorded just after compiling the true branch — that is, the length of
the compiled true branch plus one for the `If` itself
(`q − p = 1 + (q − (p + 1))`).  The patched instruction survives the
compilation of the false branch because compilation only appends or patches
at or above its own starting index. -/
theorem C4_if_backpatch (s s1 s2 s3 : CompState) (c t e : Expr)
    (hc : compileVisit s c = Except.ok s1)
    (ht : compileVisit { s1 with instructions := s1.instructions ++ [If 0 0] } t
        = Except.ok s2)
    (he : compileVisit s2 e = Except.ok s3) :
    compileVisit s (Expr.ite c t e) = Except.ok { s3 with
      instructions := patchIf s3.instructions s1.instructions.length
        (s2.instructions.length - s1.instructions.length) } ∧
    (patchIf s3.instructions s1.instructions.length
        (s2.instructions.length - s1.instructions.length))[s1.instructions.length]?
      = some (If 1 (s2.instructions.length - s1.instructions.length)) ∧
    s2.instructions.length - s1.instructions.length =
      1 + (s2.instructions.length - (s1.instructions.length + 1)) := by
  have ih2 := compileVisit_extends t _ s2 ht
  have ih3 := compileVisit_extends e s2 s3 he
  simp only [List.length_append, List.length_cons, List.length_nil] at ih2
  have hplt : s1.instructions.length < s2.instructions.length := by omega
  refine ⟨?_, ?_, by omega⟩
  · unfold compileVisit
    rw [hc]
    simp only [Bind.bind, Except.bind]
    rw [ht]
    simp only []
    rw [he]
  · have h2 : s2.instructions[s1.instructions.length]? = some (If 0 0) := by
      rw [ih2.2 s1.instructions.length (by simp)]
      rw [List.getElem?_append_right (by omega)]
      simp
    have h3 : s3.instructions[s1.instructions.length]? = some (If 0 0) := by
      rw [ih3.2 s1.instructions.length hplt]
      exact h2
    rw [patchIf_get_at _ _ _ _ h3]
    rfl

/-! ## C6: the arity cap -/

theorem lookupSlot_insertSlot_mono (m : List (Nat × Nat)) (w i v : Nat)
    (h : (lookupSlot m v).isSome) : (lookupSlot (insertSlot m w i) v).isSome := by
  unfold insertSlot
  split
  · exact h
  · unfold lookupSlot
    split
    · simp
    · exact h

theorem lookupSlot_insertSlot_self (m : List (Nat × Nat)) (w i : Nat) :
    (lookupSlot (insertSlot m w i) w).isSome := by
  unfold insertSlot
  cases hl : lookupSlot m w with
  | some x => simp [hl]
  | none =>
    unfold lookupSlot
    simp

theorem bindParams_mono : ∀ (ps : List Nat) (m : List (Nat × Nat)) (idx v : Nat),
    (lookupSlot m v).isSome → (lookupSlot (bindParams m idx ps).1 v).isSome
  | [], _, _, _, h => h
  | p :: ps, m, idx, v, h =>
    bindParams_mono ps _ (idx + 1) v (lookupSlot_insertSlot_mono m p idx v h)

theorem bindParams_mem : ∀ (ps : List Nat) (m : List (Nat × Nat)) (idx v : Nat),
    v ∈ ps → (lookupSlot (bindParams m idx ps).1 v).isSome := by
  intro ps
  induction ps with
  | nil => intro _ _ _ h; simp at h
  | cons p ps ih =>
    intro m idx v hv
    rcases List.mem_cons.mp hv with h | h
    · subst h
      exact bindParams_mono ps _ (idx + 1) v (lookupSlot_insertSlot_self m v idx)
    · exact ih _ (idx + 1) v h

theorem compileArgs_vars : ∀ (vs : List Nat) (s : CompState),
    (∀ v ∈ vs, (lookupSlot s.var_map v).isSome) →
    ∃ s', compileArgs s (vs.map Expr.var) = Except.ok s' ∧
      s'.var_map = s.var_map ∧ s'.lowered_funcs = s.lowered_funcs
  | [], s, _ => ⟨s, rfl, rfl, rfl⟩
  | v :: vs, s, h => by
    have hv := h v (List.mem_cons_self _ _)
    cases hl : lookupSlot s.var_map v with
    | none => rw [hl] at hv; cases hv
    | some idx =>
      have hstep : compileVisit s (Expr.var v) =
          Except.ok { s with instructions := s.instructions ++ [Push idx] } := by
        unfold compileVisit
        rw [hl]
      obtain ⟨s', hrest, hm, hlow⟩ := compileArgs_vars vs
        { s with instructions := s.instructions ++ [Push idx] }
        (fun w hw => h w (List.mem_cons_of_mem _ hw))
      refine ⟨s', ?_, hm, hlow⟩
      show (do
        let s1 ← compileVisit s (Expr.var v)
        compileArgs s1 (vs.map Expr.var)) = Except.ok s'
      rw [hstep]
      simpa [Bind.bind, Except.bind] using hrest

/-- C6: for the scenario-6 family `arityProg k` (a primitive of `k` tensor
inputs applied to the function's `k` parameters), compilation fails with the
capacity-limit error `arityCap` exactly when the runtime arity `k + 1`
(inputs plus the output slot) reaches the hard cap 10, i.e. iff `10 ≤ k + 1`;
below the cap compilation succeeds.  In particular 9 inputs are rejected and
8 inputs compile. -/
theorem C6_arity_cap (k : Nat) :
    ((CompileFunc (arityProg k) = Except.error CompileErr.arityCap) ↔ 10 ≤ k + 1) ∧
    (k + 1 < 10 → ∃ r, CompileFunc (arityProg k) = Except.ok r) := by
  obtain ⟨s1, hargs, hmap, hlow⟩ := compileArgs_vars (List.range k)
    { instructions := [], var_map := (bindParams [] 0 (List.range k)).1,
      stack_index := (bindParams [] 0 (List.range k)).2, seen_func := true,
      lowered_funcs := [] }
    (fun v hv => bindParams_mem (List.range k) [] 0 v hv)
  have hbody : compileVisit initComp (arityProg k) = (do
      let s ← compileArgs
        { instructions := [], var_map := (bindParams [] 0 (List.range k)).1,
          stack_index := (bindParams [] 0 (List.range k)).2, seen_func := true,
          lowered_funcs := [] } ((List.range k).map Expr.var)
      if ((List.range k).map (fun i => k + i)).length + 1 < 10 then
        Except.ok { s with
          instructions := s.instructions ++ [AllocTensor [4] DTy.float32] ++
            [InvokePacked s.lowered_funcs.length
              (((List.range k).map (fun i => k + i)).length + 1)],
          lowered_funcs := s.lowered_funcs ++
            [Expr.func ((List.range k).map (fun i => k + i)) (Expr.var k) true] }
      else Except.error CompileErr.arityCap) := rfl
  have hfn : CompileFunc (arityProg k) = (do
      let s ← compileVisit initComp (arityProg k)
      Except.ok (s.lowered_funcs,
        (⟨(List.range k).length, s.instructions ++ [Ret]⟩ : VMFunction))) := rfl
  by_cases hcap : k + 1 < 10
  · have hval : ∃ r, CompileFunc (arityProg k) = Except.ok r := by
      rw [hfn, hbody, hargs]
      simp only [Bind.bind, Except.bind]
      rw [if_pos (by simpa using hcap)]
      exact ⟨_, rfl⟩
    obtain ⟨r, hr⟩ := hval
    refine ⟨⟨fun herr => ?_, fun hge => ?_⟩, fun _ => ⟨r, hr⟩⟩
    · rw [hr] at herr; cases herr
    · omega
  · have hval : CompileFunc (arityProg k) = Except.error CompileErr.arityCap := by
      rw [hfn, hbody, hargs]
      simp only [Bind.bind, Except.bind]
      rw [if_neg (by simpa using hcap)]
    exact ⟨⟨fun _ => by omega, fun _ => hval⟩, fun hlt => absurd hlt hcap⟩

/-! ## Witnesses -/

/-- Closed instance of `C2_ret_copies_to_first_arg_slot`: the `Ret` of the
compiled identity function, entered on the empty stack with one argument. -/
theorem C2_ret_copies_to_first_arg_slot_witness :
    (⟨1, 0, 0, 1, []⟩ : VMFrame).args = [VMObject.vtensor t0].length ∧
    popFrame ⟨[], [], [] ++ [⟨1, 0, 0, 1, []⟩],
        [] ++ VMObject.vnone :: ([VMObject.vtensor t0] ++ [VMObject.vtensor t0]),
        1, 1, 0, [Push 0, Ret]⟩ =
      some (([] : List VMFrame).length + 1,
        ⟨[], [], [], [] ++ [VMObject.vnone, VMObject.vtensor t0], 1, 0, 0, []⟩) :=
  ⟨rfl, C2_ret_copies_to_first_arg_slot [] [] [] ⟨1, 0, 0, 1, []⟩ []
    [VMObject.vtensor t0] (VMObject.vtensor t0) 1 1 0 [Push 0, Ret] rfl⟩

/-- A constant kernel used in closed instances. -/
def constKernel : PackedFn := fun _ => t0

/-- A two-tensor machine about to dispatch `invoke_packed 0 2`. -/
def c3M : VMachine :=
  { packed_funcs := [constKernel],
    stack := [VMObject.vtensor t0, VMObject.vtensor t0],
    code := [InvokePacked 0 2] }

/-- Closed instance of `C3_invokePacked_step`. -/
theorem C3_invokePacked_step_witness :
    1 ≤ (InvokePacked 0 2).arity ∧
    execInstr c3M = some (StepRes.cont { c3M with
      stack := c3M.stack.take (c3M.stack.length - (InvokePacked 0 2).arity) ++
        [VMObject.vtensor (constKernel [t0, t0])],
      pc := c3M.pc + 1 }) :=
  ⟨by decide, (C3_invokePacked_step c3M (InvokePacked 0 2) constKernel [t0, t0]
    rfl rfl rfl (by decide) (by decide) rfl).1⟩

/-- Compiler states of a concrete conditional `if x0 then x1 else x2`. -/
def c4s : CompState :=
  { instructions := [], var_map := [(0, 0), (1, 1), (2, 2)], stack_index := 3,
    seen_func := true, lowered_funcs := [] }

def c4s1 : CompState := { c4s with instructions := [Push 0] }

def c4s2 : CompState := { c4s with instructions := [Push 0, If 0 0, Push 1] }

def c4s3 : CompState :=
  { c4s with instructions := [Push 0, If 0 0, Push 1, Push 2] }

/-- Closed instance of `C4_if_backpatch`: the placeholder at position 1 is
patched to `if 1 2`. -/
theorem C4_if_backpatch_witness :
    compileVisit c4s (Expr.ite (Expr.var 0) (Expr.var 1) (Expr.var 2)) =
      Except.ok { c4s3 with
        instructions := patchIf c4s3.instructions c4s1.instructions.length
          (c4s2.instructions.length - c4s1.instructions.length) } ∧
    (patchIf c4s3.instructions c4s1.instructions.length
        (c4s2.instructions.length - c4s1.instructions.length))[c4s1.instructions.length]?
      = some (If 1 (c4s2.instructions.length - c4s1.instructions.length)) :=
  ⟨(C4_if_backpatch c4s c4s1 c4s2 c4s3 (Expr.var 0) (Expr.var 1) (Expr.var 2)
      rfl rfl rfl).1,
   (C4_if_backpatch c4s c4s1 c4s2 c4s3 (Expr.var 0) (Expr.var 1) (Expr.var 2)
      rfl rfl rfl).2.1⟩

/-- Closed instance of `C6_arity_cap`: 9 inputs are rejected with the
capacity-limit error, 8 inputs compile. -/
theorem C6_arity_cap_witness :
    (CompileFunc (arityProg 9) = Except.error CompileErr.arityCap) ∧
    (∃ r, CompileFunc (arityProg 8) = Except.ok r) :=
  ⟨(C6_arity_cap 9).1.mpr (by decide), (C6_arity_cap 8).2 (by decide)⟩

/-- A machine about to execute a `Push`. -/
def c10M : VMachine := { stack := [VMObject.vtensor t0], code := [Push 0] }

/-- The machine after that `Push` step. -/
def c10M2 : VMachine :=
  { c10M with stack := c10M.stack ++ [VMObject.vtensor t0], pc := c10M.pc + 1 }

/-- Closed instance of `C10_non_ret_preserves_frame_state` on a `Push` step. -/
theorem C10_non_ret_preserves_frame_state_witness :
    (execInstr c10M = some (StepRes.cont c10M2)) ∧ c10M2.frames = c10M.frames :=
  ⟨rfl, (C10_non_ret_preserves_frame_state c10M c10M2 rfl).1⟩

/-! ## C9: the host entry point always runs the first function -/

/-- All `InvokePacked` instructions in `c` index below `L0`. -/
def instrIdxOK (L0 : Nat) (c : List Instruction) : Prop :=
  ∀ ins ∈ c, ins.op = Opcode.InvokePacked → ins.packed_index < L0

theorem instrIdxOK_mono {L0 L1 : Nat} {c : List Instruction} (h : L0 ≤ L1)
    (hc : instrIdxOK L0 c) : instrIdxOK L1 c :=
  fun ins hm hop => lt_of_lt_of_le (hc ins hm hop) h

theorem instrIdxOK_append {L0 : Nat} {c d : List Instruction}
    (hc : instrIdxOK L0 c) (hd : instrIdxOK L0 d) : instrIdxOK L0 (c ++ d) := by
  intro ins hm hop
  rcases List.mem_append.mp hm with h | h
  · exact hc ins h hop
  · exact hd ins h hop

theorem instrIdxOK_patchIf {L0 : Nat} {l : List Instruction} {p fo : Nat}
    (h : instrIdxOK L0 l) : instrIdxOK L0 (patchIf l p fo) := by
  intro ins hm hop
  unfold patchIf at hm
  split at hm
  · rename_i ins0 h0
    rcases List.mem_or_eq_of_mem_set hm with hmem | heq
    · exact h ins hmem hop
    · subst heq
      have hmem0 : ins0 ∈ l := by
        have := List.getElem?_eq_some_iff.mp h0
        obtain ⟨hlt, hget⟩ := this
        exact hget ▸ List.getElem_mem hlt
      exact h ins0 hmem0 hop
  · exact h ins hm hop

mutual

theorem compileVisit_idxOK : ∀ (e : Expr) (s s' : CompState),
    compileVisit s e = Except.ok s' →
    s.lowered_funcs.length ≤ s'.lowered_funcs.length ∧
    (instrIdxOK s.lowered_funcs.length s.instructions →
      instrIdxOK s'.lowered_funcs.length s'.instructions)
  | Expr.var v, s, s', h => by
    unfold compileVisit at h
    split at h
    · cases h
    · cases h
      refine ⟨le_refl _, fun hOK => instrIdxOK_append hOK ?_⟩
      intro ins hm hop
      simp at hm
      subst hm
      cases hop
  | Expr.gvar g, s, s', h => by cases h
  | Expr.lett v value body, s, s', h => by cases h
  | Expr.func ps b prim, s, s', h => by
    unfold compileVisit at h
    split at h
    · cases h
    · have ih := compileVisit_idxOK _ _ _ h
      exact ih
  | Expr.ite c t e, s, s', h => by
    unfold compileVisit at h
    obtain ⟨s1, hc, h⟩ := bindE_ok h
    obtain ⟨s2, ht, h⟩ := bindE_ok h
    obtain ⟨s3, he, h⟩ := bindE_ok h
    cases h
    have ih1 := compileVisit_idxOK c s s1 hc
    have ih2 := compileVisit_idxOK t _ s2 ht
    have ih3 := compileVisit_idxOK e s2 s3 he
    refine ⟨le_trans ih1.1 (le_trans ih2.1 ih3.1), fun hOK => ?_⟩
    refine instrIdxOK_patchIf (ih3.2 (ih2.2 ?_))
    refine instrIdxOK_append (instrIdxOK_mono (le_refl _) (ih1.2 hOK)) ?_
    intro ins hm hop
    simp at hm
    subst hm
    cases hop
  | Expr.call op args ty, s, s', h => by
    cases op with
    | var v => cases h
    | gvar g => cases h
    | call o a t => cases h
    | lett a b c => cases h
    | ite a b c => cases h
    | func ps b prim =>
      cases ty with
      | otherTy =>
        replace h : (do
          let s1 ← compileArgs s args
          (Except.error CompileErr.notTensorType : Except CompileErr CompState))
            = Except.ok s' := h
        obtain ⟨s1, ha, h⟩ := bindE_ok h
        cases h
      | tensorTy shape dtype =>
        cases prim with
        | false =>
          replace h : (do
            let s1 ← compileArgs s args
            (Except.error CompileErr.opNotPrimitive : Except CompileErr CompState))
              = Except.ok s' := h
          obtain ⟨s1, ha, h⟩ := bindE_ok h
          cases h
        | true =>
          replace h : (do
            let s1 ← compileArgs s args
            if ps.length + 1 < 10 then
              Except.ok { s1 with
                instructions := s1.instructions ++ [AllocTensor shape dtype] ++
                  [InvokePacked s1.lowered_funcs.length (ps.length + 1)],
                lowered_funcs := s1.lowered_funcs ++ [Expr.func ps b true] }
            else Except.error CompileErr.arityCap) = Except.ok s' := h
          obtain ⟨s1, ha, h⟩ := bindE_ok h
          have ih1 := compileArgs_idxOK args s s1 ha
          by_cases harity : ps.length + 1 < 10
          · rw [if_pos harity] at h
            cases h
            refine ⟨by simp; omega, fun hOK => ?_⟩
            refine instrIdxOK_append (instrIdxOK_append ?_ ?_) ?_
            · exact instrIdxOK_mono (by simp) (ih1.2 hOK)
            · intro ins hm hop
              simp at hm
              subst hm
              cases hop
            · intro ins hm hop
              simp at hm
              subst hm
              simp [InvokePacked]
          · rw [if_neg harity] at h
            cases h

theorem compileArgs_idxOK : ∀ (l : List Expr) (s s' : CompState),
    compileArgs s l = Except.ok s' →
    s.lowered_funcs.length ≤ s'.lowered_funcs.length ∧
    (instrIdxOK s.lowered_funcs.length s.instructions →
      instrIdxOK s'.lowered_funcs.length s'.instructions)
  | [], s, s', h => by
    cases h
    exact ⟨le_refl _, fun hOK => hOK⟩
  | a :: as, s, s', h => by
    unfold compileArgs at h
    obtain ⟨s1, ha, h⟩ := bindE_ok h
    have ih1 := compileVisit_idxOK a s s1 ha
    have ih2 := compileArgs_idxOK as s1 s' h
    exact ⟨le_trans ih1.1 ih2.1, fun hOK => ih2.2 (ih1.2 hOK)⟩

end

/-- The instructions of a compiled function only index its own kernel list. -/
theorem CompileFunc_idxOK (f : Expr) (ks : List Expr) (vf : VMFunction)
    (h : CompileFunc f = Except.ok (ks, vf)) :
    instrIdxOK ks.length vf.instructions := by
  unfold CompileFunc at h
  obtain ⟨s, hs, h⟩ := bindE_ok h
  cases h
  have := compileVisit_idxOK f initComp s hs
  refine instrIdxOK_append (this.2 ?_) ?_
  · intro ins hm
    simp [initComp] at hm
  · intro ins hm hop
    simp at hm
    subst hm
    cases hop

/-- Replace the function table and extend the kernel table of a machine;
`testeval` on the full module runs the first function on exactly such a
lifted machine. -/
def liftVM (extra : List PackedFn) (fns2 : List VMFunction) (m : VMachine) :
    VMachine :=
  { m with packed_funcs := m.packed_funcs ++ extra, functions := fns2 }

/-- Lift a step result. -/
def liftSR (extra : List PackedFn) (fns2 : List VMFunction) : StepRes → StepRes
  | StepRes.cont m => StepRes.cont (liftVM extra fns2 m)
  | StepRes.ret k m => StepRes.ret k (liftVM extra fns2 m)

/-- The executing code and every saved frame code index only the machine's
own kernel prefix. -/
def framesOK (L0 : Nat) (m : VMachine) : Prop :=
  instrIdxOK L0 m.code ∧ ∀ fr ∈ m.frames, instrIdxOK L0 fr.code

theorem popFrame_lift (extra : List PackedFn) (fns2 : List VMFunction)
    (m : VMachine) :
    popFrame (liftVM extra fns2 m) =
      (popFrame m).map (fun km => (km.1, liftVM extra fns2 km.2)) := by
  unfold popFrame liftVM
  cases m.frames.getLast? with
  | none => rfl
  | some fr =>
    simp only []
    split
    · cases m.stack.getLast? with
      | none => rfl
      | some top => rfl
    · rfl

theorem execInstr_lift (extra : List PackedFn) (fns2 : List VMFunction)
    (m : VMachine) (hOK : instrIdxOK m.packed_funcs.length m.code) :
    execInstr (liftVM extra fns2 m) = (execInstr m).map (liftSR extra fns2) := by
  have hcode : (liftVM extra fns2 m).code = m.code := rfl
  have hpc : (liftVM extra fns2 m).pc = m.pc := rfl
  have hstack : (liftVM extra fns2 m).stack = m.stack := rfl
  have hbp : (liftVM extra fns2 m).bp = m.bp := rfl
  have hpacked : (liftVM extra fns2 m).packed_funcs = m.packed_funcs ++ extra := rfl
  unfold execInstr
  rw [hcode, hpc, hstack, hbp, hpacked]
  cases hfetch : m.code.get? m.pc with
  | none => rfl
  | some instr =>
    simp only []
    cases hop : instr.op with
    | Invoke => rfl
    | InvokePacked =>
      have hmem : instr ∈ m.code := by
        rw [List.get?_eq_getElem?] at hfetch
        obtain ⟨hlt, hget⟩ := List.getElem?_eq_some_iff.mp hfetch
        exact hget ▸ List.getElem_mem hlt
      have hidx := hOK instr hmem hop
      rw [List.get?_append hidx]
      cases m.packed_funcs.get? instr.packed_index with
      | none => rfl
      | some f =>
        simp only []
        cases invokePackedFn f instr.arity m.stack with
        | none => rfl
        | some stack2 => rfl
    | If =>
      cases m.stack.getLast? with
      | none => rfl
      | some cond =>
        simp only []
        cases toNDArray cond with
        | none => rfl
        | some arr =>
          simp only []
          by_cases hdt : arr.dtype = DTy.boolT
          · rw [if_pos hdt, if_pos hdt]
            cases arr.data.head? with
            | none => rfl
            | some b =>
              simp only []
              by_cases hb : b ≠ 0
              · rw [if_pos hb, if_pos hb]
                rfl
              · rw [if_neg hb, if_neg hb]
                rfl
          · rw [if_neg hdt, if_neg hdt]
            rfl
    | AllocTensor => rfl
    | Push =>
      by_cases hlt : m.bp + instr.stack_index < m.stack.length
      · rw [if_pos hlt, if_pos hlt]
        cases m.stack.get? (m.bp + instr.stack_index) with
        | none => rfl
        | some v => rfl
      · rw [if_neg hlt, if_neg hlt]
        rfl
    | Ret =>
      rw [popFrame_lift]
      cases popFrame m with
      | none => rfl
      | some km => rfl

theorem execInstr_preserves (m : VMachine) (r : StepRes)
    (h : execInstr m = some r) :
    (∀ m', r = StepRes.cont m' →
      m'.packed_funcs = m.packed_funcs ∧ m'.code = m.code ∧
        m'.frames = m.frames) ∧
    (∀ k m', r = StepRes.ret k m' →
      m'.packed_funcs = m.packed_funcs ∧
        ∀ c, (c = m'.code ∨ c ∈ m'.frames.map VMFrame.code) →
          (c = m.code ∨ c ∈ m.frames.map VMFrame.code)) := by
  constructor
  · intro m' hr
    subst hr
    have := C10_non_ret_preserves_frame_state m m' h
    -- packed_funcs: no continuing step writes it
    unfold execInstr at h
    split at h
    · exact absurd h (by simp)
    · split at h
      · exact absurd h (by simp)
      · split at h
        · exact absurd h (by simp)
        · split at h
          · exact absurd h (by simp)
          · simp only [Option.some.injEq, StepRes.cont.injEq] at h
            subst h
            exact ⟨rfl, this.2.2.2, this.1⟩
      · split at h
        · exact absurd h (by simp)
        · split at h
          · exact absurd h (by simp)
          · split at h
            · split at h
              · exact absurd h (by simp)
              · split at h
                · simp only [Option.some.injEq, StepRes.cont.injEq] at h
                  subst h
                  exact ⟨rfl, this.2.2.2, this.1⟩
                · simp only [Option.some.injEq, StepRes.cont.injEq] at h
                  subst h
                  exact ⟨rfl, this.2.2.2, this.1⟩
            · exact absurd h (by simp)
      · simp only [Option.some.injEq, StepRes.cont.injEq] at h
        subst h
        exact ⟨rfl, this.2.2.2, this.1⟩
      · split at h
        · split at h
          · exact absurd h (by simp)
          · simp only [Option.some.injEq, StepRes.cont.injEq] at h
            subst h
            exact ⟨rfl, this.2.2.2, this.1⟩
        · exact absurd h (by simp)
      · split at h
        · exact absurd h (by simp)
        · exact absurd h (by simp)
  · intro k m' hr
    subst hr
    unfold execInstr at h
    split at h
    · exact absurd h (by simp)
    · split at h
      · exact absurd h (by simp)
      · split at h
        · exact absurd h (by simp)
        · split at h
          · exact absurd h (by simp)
          · exact absurd h (by simp)
      · split at h
        · exact absurd h (by simp)
        · split at h
          · exact absurd h (by simp)
          · split at h
            · split at h
              · exact absurd h (by simp)
              · split at h <;> exact absurd h (by simp)
            · exact absurd h (by simp)
      · exact absurd h (by simp)
      · split at h
        · split at h
          · exact absurd h (by simp)
          · exact absurd h (by simp)
        · exact absurd h (by simp)
      · rename_i instr hfetch hop
        cases hpf : popFrame m with
        | none => rw [hpf] at h; exact absurd h (by simp)
        | some km =>
          obtain ⟨kk, mm⟩ := km
          rw [hpf] at h
          simp only [Option.some.injEq, StepRes.ret.injEq] at h
          obtain ⟨hk, hm⟩ := h
          subst hm
          unfold popFrame at hpf
          cases hgl : m.frames.getLast? with
          | none => rw [hgl] at hpf; cases hpf
          | some fr =>
            rw [hgl] at hpf
            simp only [] at hpf
            split at hpf
            · cases hgs : m.stack.getLast? with
              | none => rw [hgs] at hpf; cases hpf
              | some top =>
                rw [hgs] at hpf
                simp only [Option.some.injEq, Prod.mk.injEq] at hpf
                obtain ⟨hk2, hm2⟩ := hpf
                subst hm2
                refine ⟨rfl, fun c hc => ?_⟩
                rcases hc with hc | hc
                · right
                  rw [hc]
                  exact List.mem_map_of_mem _ (List.mem_of_mem_getLast? hgl)
                · right
                  have hsub : List.Sublist (m.frames.dropLast.map VMFrame.code)
                      (m.frames.map VMFrame.code) :=
                    List.Sublist.map _ (List.dropLast_sublist _)
                  exact hsub.mem hc
            · cases hpf

theorem framesOK_step (L0 : Nat) (m : VMachine) (r : StepRes)
    (h : execInstr m = some r) (hfo : framesOK L0 m) :
    (∀ m', r = StepRes.cont m' →
      framesOK L0 m' ∧ m'.packed_funcs = m.packed_funcs) ∧
    (∀ k m', r = StepRes.ret k m' →
      framesOK L0 m' ∧ m'.packed_funcs = m.packed_funcs) := by
  have hp := execInstr_preserves m r h
  constructor
  · intro m' hr
    obtain ⟨hpk, hcode, hframes⟩ := hp.1 m' hr
    refine ⟨⟨?_, ?_⟩, hpk⟩
    · rw [hcode]; exact hfo.1
    · rw [hframes]; exact hfo.2
  · intro k m' hr
    obtain ⟨hpk, hsub⟩ := hp.2 k m' hr
    refine ⟨⟨?_, ?_⟩, hpk⟩
    · rcases hsub m'.code (Or.inl rfl) with hc | hc
      · rw [hc]; exact hfo.1
      · obtain ⟨fr, hfr, hfc⟩ := List.mem_map.mp hc
        rw [← hfc]; exact hfo.2 fr hfr
    · intro fr hfr
      rcases hsub fr.code (Or.inr (List.mem_map_of_mem _ hfr)) with hc | hc
      · rw [hc]; exact hfo.1
      · obtain ⟨fr2, hfr2, hfc⟩ := List.mem_map.mp hc
        rw [← hfc]; exact hfo.2 fr2 hfr2

theorem runLoop_lift (extra : List PackedFn) (fns2 : List VMFunction) (L0 : Nat) :
    ∀ (fuel ss : Nat) (m : VMachine), m.packed_funcs.length = L0 →
    framesOK L0 m →
    runLoop fuel ss (liftVM extra fns2 m) =
      (runLoop fuel ss m).map (liftVM extra fns2)
  | 0, _, _, _, _ => rfl
  | fuel + 1, ss, m, hL, hfo => by
    unfold runLoop
    rw [execInstr_lift extra fns2 m (by rw [hL]; exact hfo.1)]
    cases hstep : execInstr m with
    | none => rfl
    | some r =>
      have hp := framesOK_step L0 m r hstep hfo
      cases r with
      | cont m1 =>
        simp only [Option.map, liftSR]
        exact runLoop_lift extra fns2 L0 fuel ss m1
          (by rw [(hp.1 m1 rfl).2, hL]) (hp.1 m1 rfl).1
      | ret k m1 =>
        simp only [Option.map, liftSR]
        by_cases hks : k = ss
        · rw [if_pos hks, if_pos hks]
        · rw [if_neg hks, if_neg hks]
          exact runLoop_lift extra fns2 L0 fuel ss m1
            (by rw [(hp.2 k m1 rfl).2, hL]) (hp.2 k m1 rfl).1

theorem runVM_lift (extra : List PackedFn) (fns2 : List VMFunction)
    (fuel : Nat) (m : VMachine) (hfo : framesOK m.packed_funcs.length m) :
    runVM fuel (liftVM extra fns2 m) = (runVM fuel m).map (liftVM extra fns2) := by
  unfold runVM
  have h1 : (liftVM extra fns2 m).frames.length = m.frames.length := rfl
  rw [h1]
  have h2 : ({ liftVM extra fns2 m with pc := 0 } : VMachine) =
      liftVM extra fns2 { m with pc := 0 } := rfl
  rw [h2]
  exact runLoop_lift extra fns2 m.packed_funcs.length fuel m.frames.length
    { m with pc := 0 } rfl hfo

theorem invokeGlobal_lift (extra : List PackedFn) (fns2 : List VMFunction)
    (m : VMachine) (f : VMFunction) (args : List VMObject) :
    invokeGlobal (liftVM extra fns2 m) f args =
      (invokeGlobal m f args).map (liftVM extra fns2) := by
  unfold invokeGlobal
  split
  · rfl
  · rfl

theorem lastStep_lift (extra : List PackedFn) (fns2 : List VMFunction)
    (m2 : VMachine) :
    (match (liftVM extra fns2 m2).stack.getLast? with
     | none => none
     | some r => some (liftVM extra fns2 m2, r)) =
    (match m2.stack.getLast? with
     | none => (none : Option (VMachine × VMObject))
     | some r => some (m2, r)).map
      (fun p : VMachine × VMObject => (liftVM extra fns2 p.1, p.2)) := by
  have hst : (liftVM extra fns2 m2).stack = m2.stack := rfl
  rw [hst]
  cases m2.stack.getLast? with
  | none => rfl
  | some r => rfl

theorem InvokeVM_lift (extra : List PackedFn) (fns2 : List VMFunction)
    (fuel : Nat) (m : VMachine) (f : VMFunction) (args : List VMObject)
    (hcodeOK : instrIdxOK m.packed_funcs.length f.instructions)
    (hfo : framesOK m.packed_funcs.length m) :
    InvokeVM fuel (liftVM extra fns2 m) f args =
      (InvokeVM fuel m f args).map (fun p => (liftVM extra fns2 p.1, p.2)) := by
  unfold InvokeVM
  rw [invokeGlobal_lift]
  cases hg : invokeGlobal m f args with
  | none => rfl
  | some m1 =>
    have hm1 : m1.packed_funcs = m.packed_funcs ∧ m1.code = f.instructions ∧
        m1.frames = m.frames ++ [⟨m.pc + 1, m.bp, m.func_index, f.params, m.code⟩] := by
      unfold invokeGlobal at hg
      split at hg
      · cases hg
        exact ⟨rfl, rfl, rfl⟩
      · cases hg
    have hfo1 : framesOK m1.packed_funcs.length m1 := by
      rw [hm1.1]
      refine ⟨hm1.2.1 ▸ hcodeOK, ?_⟩
      rw [hm1.2.2]
      intro fr hfr
      rcases List.mem_append.mp hfr with hfr | hfr
      · exact hfo.2 fr hfr
      · simp at hfr
        subst hfr
        exact hfo.1
    show (do
        let m2 ← runVM fuel (liftVM extra fns2 m1)
        match m2.stack.getLast? with
        | none => none
        | some r => some (m2, r)) =
      (do
        let m2 ← runVM fuel m1
        match m2.stack.getLast? with
        | none => none
        | some r => some (m2, r)).map
        (fun p : VMachine × VMObject => (liftVM extra fns2 p.1, p.2))
    rw [runVM_lift extra fns2 fuel m1 hfo1]
    cases hr : runVM fuel m1 with
    | none => rfl
    | some m2 =>
      exact lastStep_lift extra fns2 m2

theorem compileFuncs_cons (g : Nat) (f : Expr) (rest : RModule)
    (fns : List VMFunction) (ks : List Expr)
    (h : compileFuncs ((g, f) :: rest) = Except.ok (fns, ks)) :
    ∃ kf vf fnsr ksr, CompileFunc f = Except.ok (kf, vf) ∧
      compileFuncs rest = Except.ok (fnsr, ksr) ∧
      fns = vf :: fnsr ∧ ks = kf ++ ksr := by
  unfold compileFuncs at h
  obtain ⟨cf, hcf, h⟩ := bindE_ok h
  obtain ⟨crest, hcrest, h⟩ := bindE_ok h
  simp only [Except.ok.injEq, Prod.mk.injEq] at h
  exact ⟨cf.1, cf.2, crest.1, crest.2, hcf, hcrest, h.1.symm, h.2.symm⟩

/-- A one-input copy kernel: the backend build step hands back a callable
that writes its first input into the output buffer. -/
def copyBuild : Expr → PackedFn := fun _ => fun args => args.headD t0

/-- The vector `[1,1,1,1]`. -/
def ta : NDArr := ⟨[4], DTy.float32, [1, 1, 1, 1]⟩

/-- A module whose body is a let-bound primitive call — the compiler has no
`Let` visitor, so the entry point rejects it even though its inlined form
(below) compiles and runs. -/
def letMod : RModule :=
  [(0, Expr.func [0]
    (Expr.lett 1 primId
      (Expr.call (Expr.var 1) [Expr.var 0] (Ty.tensorTy [4] DTy.float32))) false)]

/-- `letMod` after `InlinePrimitives`. -/
def letModInl : RModule :=
  [(0, Expr.func [0]
    (Expr.call primId [Expr.var 0] (Ty.tensorTy [4] DTy.float32)) false)]

/-- C9: the host entry point `relay._runtime._testeval` compiles its module
directly with `CompileModule` — the primitive inliner is never applied — and
always invokes the first function of the resulting function table, returning
that function's result as a tensor.  Formally: (1) for every module the entry
point accepts and compiles, the outcome is the same as on the one-function
module holding only the first function (the remaining functions only append
kernels after the first function's own, which its code never indexes); and
(2) a module whose body still contains a let-bound primitive is rejected
(`none`) by the entry point although its `InlinePrimitives` image compiles
and evaluates fine — so the entry point cannot be running the inliner. -/
theorem C9_testeval_first_function :
    (∀ (build : Expr → PackedFn) (fuel : Nat) (g : Nat) (f : Expr)
        (rest : RModule) (args : List NDArr) (vmFull : VMachine),
      CompileModule build ((g, f) :: rest) = Except.ok vmFull →
      testeval build fuel ((g, f) :: rest) args = testeval build fuel [(g, f)] args) ∧
    testeval copyBuild 30 letMod [ta] = none ∧
    InlinePrimitives letMod = some letModInl ∧
    testeval copyBuild 30 letModInl [ta] = some ta := by
  refine ⟨?_, by decide, by decide, by decide⟩
  intro build fuel g f rest args vmFull hok
  unfold CompileModule at hok
  obtain ⟨c, hcf, hok⟩ := bindE_ok hok
  obtain ⟨kf, vf, fnsr, ksr, hf, hrest, hfns, hks⟩ :=
    compileFuncs_cons g f rest c.1 c.2 (by rw [hcf])
  cases hok
  have hsingle : compileFuncs [(g, f)] = Except.ok ([vf], kf ++ []) := by
    unfold compileFuncs
    rw [hf]
    rfl
  have hfullfns : c.1.get? 0 = some vf := by rw [hfns]; rfl
  unfold testeval
  rw [show CompileModule build ((g, f) :: rest) =
      Except.ok { functions := c.1, packed_funcs := c.2.map build } from by
    unfold CompileModule
    rw [hcf]
    rfl]
  rw [show CompileModule build [(g, f)] =
      Except.ok { functions := [vf], packed_funcs := (kf ++ []).map build } from by
    unfold CompileModule
    rw [hsingle]
    rfl]
  simp only []
  rw [hfullfns]
  simp only [List.get?]
  have hvmfull : ({ functions := c.1, packed_funcs := c.2.map build } : VMachine) =
      liftVM (ksr.map build) c.1
        { functions := [vf], packed_funcs := (kf ++ []).map build } := by
    rw [hks]
    simp [liftVM, List.map_append]
  rw [hvmfull]
  have hcodeOK : instrIdxOK
      (({ functions := [vf], packed_funcs := (kf ++ []).map build } :
        VMachine)).packed_funcs.length vf.instructions := by
    have := CompileFunc_idxOK f kf vf hf
    simp only [List.append_nil, List.length_map]
    exact this
  have hlift := InvokeVM_lift (ksr.map build) c.1 fuel
    { functions := [vf], packed_funcs := (kf ++ []).map build } vf
    (args.map VMObject.vtensor) hcodeOK
    ⟨fun ins hm => by simp at hm, fun fr hfr => by simp at hfr⟩
  rw [hlift]
  cases InvokeVM fuel { functions := [vf], packed_funcs := (kf ++ []).map build }
      vf (args.map VMObject.vtensor) with
  | none => rfl
  | some p => rfl

/-- Witness for C9: on the two-function module `[id, id]` the entry point
returns the same result as on the one-function module holding just the first
`id`, with the compile hypothesis discharged by evaluation. -/
theorem C9_testeval_first_function_witness :
    testeval copyBuild 30 [(0, idFn), (1, idFn)] [t0] =
      testeval copyBuild 30 [(0, idFn)] [t0] :=
  C9_testeval_first_function.1 copyBuild 30 0 idFn [(1, idFn)] [t0]
    { functions := [idVMF, idVMF], packed_funcs := [] } rfl

/-! ## C7: idempotence of the inliner on flat modules -/

/-- The expression is not a let binding. -/
def notLet : Expr → Bool
  | Expr.lett _ _ _ => false
  | _ => true

mutual

/-- "Flat" expressions: no let binding stands as the value of another let or
in call-operator position.  These are the shapes on which dead-code
elimination can collapse a stored binding into a plain alias, which is what
defeats a second inliner pass (see `C7_counterexample`). -/
def flatE : Expr → Bool
  | Expr.var _ => true
  | Expr.gvar _ => true
  | Expr.func _ b _ => flatE b
  | Expr.call op args _ => notLet op && (flatE op && flatL args)
  | Expr.lett _ value body => notLet value && (flatE value && flatE body)
  | Expr.ite c t e => flatE c && (flatE t && flatE e)

def flatL : List Expr → Bool
  | [] => true
  | a :: as => flatE a && flatL as

end

mutual

/-- All let-bound variables of an expression, in visit order.  In the C++
these are distinct `VarNode` pointers; the embedding keys `var_map` on the
numeric name, so distinctness is an explicit hypothesis below. -/
def bindersE : Expr → List Nat
  | Expr.var _ => []
  | Expr.gvar _ => []
  | Expr.func _ b _ => bindersE b
  | Expr.call op args _ => bindersE op ++ bindersL args
  | Expr.lett v value body => v :: (bindersE value ++ bindersE body)
  | Expr.ite c t e => bindersE c ++ bindersE t ++ bindersE e

def bindersL : List Expr → List Nat
  | [] => []
  | a :: as => bindersE a ++ bindersL as

end

/-- All let-bound variables of a module, in visit order. -/
def modBinders : RModule → List Nat
  | [] => []
  | p :: rest => bindersE p.2 ++ modBinders rest

/-- The coarse shape of an expression as the alias-chasing loop sees it:
a variable link, a primitive function literal, a global name, or anything
else. -/
inductive VKind where
  | kvar : Nat → VKind
  | kprim
  | kgvar
  | kother
deriving DecidableEq

/-- Classify an expression for the chase loop. -/
def kindOf : Expr → VKind
  | Expr.var v => VKind.kvar v
  | Expr.gvar _ => VKind.kgvar
  | Expr.func _ _ true => VKind.kprim
  | _ => VKind.kother

/-- Is the expression a variable reference? -/
def isVarE : Expr → Bool
  | Expr.var _ => true
  | _ => false

/-- Correspondence between the first-pass and second-pass `var_map`s: every
binding the second pass has, the first pass had as well, with a value of the
same chase-relevant shape (same alias target, or primitive/global/other
alike). -/
def mapLE (m1 m2 : VarMap) : Prop :=
  ∀ v e2, lookupVar m2 v = some e2 →
    ∃ e1, lookupVar m1 v = some e1 ∧ kindOf e1 = kindOf e2

/-- None of the given variables is bound in the map. -/
def freshIn (m : VarMap) (bs : List Nat) : Prop :=
  ∀ v ∈ bs, lookupVar m v = none

/-- The chase results on which the call visitor falls back to the default
traversal (no rewrite happens). -/
def defaultish : ChaseRes → Prop
  | ChaseRes.unmapped _ => True
  | ChaseRes.nonVar e => isPrimLit e = false ∧ isGvarE e = false

theorem kindOf_kvar {e : Expr} {w : Nat} (h : kindOf e = VKind.kvar w) :
    e = Expr.var w := by
  cases e with
  | var v => simp [kindOf] at h; rw [h]
  | gvar g => simp [kindOf] at h
  | func ps b p => cases p <;> simp [kindOf] at h
  | call op args ty => simp [kindOf] at h
  | lett v value body => simp [kindOf] at h
  | ite c t e => simp [kindOf] at h

theorem kindOf_kprim {e : Expr} (h : kindOf e = VKind.kprim) :
    isPrimLit e = true := by
  cases e with
  | var v => simp [kindOf] at h
  | gvar g => simp [kindOf] at h
  | func ps b p => cases p with
    | true => rfl
    | false => simp [kindOf] at h
  | call op args ty => simp [kindOf] at h
  | lett v value body => simp [kindOf] at h
  | ite c t e => simp [kindOf] at h

theorem kindOf_kgvar {e : Expr} (h : kindOf e = VKind.kgvar) :
    isGvarE e = true := by
  cases e with
  | var v => simp [kindOf] at h
  | gvar g => rfl
  | func ps b p => cases p <;> simp [kindOf] at h
  | call op args ty => simp [kindOf] at h
  | lett v value body => simp [kindOf] at h
  | ite c t e => simp [kindOf] at h

theorem kindOf_kother {e : Expr} (h : kindOf e = VKind.kother) :
    isVarE e = false ∧ isPrimLit e = false ∧ isGvarE e = false := by
  cases e with
  | var v => simp [kindOf] at h
  | gvar g => simp [kindOf] at h
  | func ps b p => cases p with
    | true => simp [kindOf] at h
    | false => exact ⟨rfl, rfl, rfl⟩
  | call op args ty => exact ⟨rfl, rfl, rfl⟩
  | lett v value body => exact ⟨rfl, rfl, rfl⟩
  | ite c t e => exact ⟨rfl, rfl, rfl⟩

theorem kindOf_eq_kother {e : Expr} (hv : isVarE e = false)
    (hp : isPrimLit e = false) (hg : isGvarE e = false) :
    kindOf e = VKind.kother := by
  cases e with
  | var v => simp [isVarE] at hv
  | gvar g => simp [isGvarE] at hg
  | func ps b p => cases p with
    | true => simp [isPrimLit] at hp
    | false => rfl
  | call op args ty => rfl
  | lett v value body => rfl
  | ite c t e => rfl

theorem kindOf_dce {e : Expr} (h : notLet e = true) :
    kindOf (dce e) = kindOf e := by
  cases e with
  | var v => rfl
  | gvar g => rfl
  | func ps b p => cases p <;> rfl
  | call op args ty => rfl
  | lett v value body => simp [notLet] at h
  | ite c t e => rfl

theorem chaseF_nonvar (m : VarMap) (f : Nat) (seen : List Nat) (e : Expr)
    (he : isVarE e = false) :
    chaseF m (f + 1) seen e = some (ChaseRes.nonVar e) := by
  cases e with
  | var v => simp [isVarE] at he
  | gvar g => rfl
  | func ps b p => rfl
  | call op args ty => rfl
  | lett v value body => rfl
  | ite c t e => rfl

theorem chase_nonvar (m : VarMap) (e : Expr) (he : isVarE e = false) :
    chase m [] e = some (ChaseRes.nonVar e) :=
  chaseF_nonvar m m.length [] e he

/-- Option-monad analogue of `bindE_ok`. -/
theorem bindO_ok {α β : Type} {x : Option α} {f : α → Option β} {r : β}
    (h : (x >>= f) = some r) : ∃ a, x = some a ∧ f a = some r := by
  cases x with
  | none => simp at h
  | some a => exact ⟨a, rfl, h⟩

theorem lookupVar_insertIfAbsent_mono (m : VarMap) (v : Nat) (e : Expr)
    (w : Nat) (x : Expr) (h : lookupVar m w = some x) :
    lookupVar (insertIfAbsent m v e) w = some x := by
  unfold insertIfAbsent
  cases hv : lookupVar m v with
  | some _ => exact h
  | none =>
    rw [lookupVar]
    by_cases hw : v = w
    · subst hw
      rw [hv] at h
      cases h
    · rw [if_neg hw]
      exact h

theorem lookupVar_insertIfAbsent_dom (m : VarMap) (v : Nat) (e : Expr)
    (w : Nat) (x : Expr) (h : lookupVar (insertIfAbsent m v e) w = some x) :
    lookupVar m w = some x ∨ w = v := by
  unfold insertIfAbsent at h
  cases hv : lookupVar m v with
  | some _ =>
    rw [hv] at h
    exact Or.inl h
  | none =>
    rw [hv] at h
    rw [lookupVar] at h
    by_cases hw : v = w
    · exact Or.inr hw.symm
    · rw [if_neg hw] at h
      exact Or.inl h

theorem insertIfAbsent_fresh (m : VarMap) (v : Nat) (e : Expr)
    (hfresh : lookupVar m v = none) :
    insertIfAbsent m v e = (v, e) :: m := by
  unfold insertIfAbsent
  rw [hfresh]

theorem chaseF_var_none (m : VarMap) (f : Nat) (seen : List Nat) (v : Nat)
    (hseen : v ∉ seen) (hlook : lookupVar m v = none) :
    chaseF m (f + 1) seen (Expr.var v) = some (ChaseRes.unmapped v) := by
  rw [chaseF, if_neg hseen, hlook]

theorem chaseF_var_some (m : VarMap) (f : Nat) (seen : List Nat) (v : Nat)
    (e : Expr) (hseen : v ∉ seen) (hlook : lookupVar m v = some e) :
    chaseF m (f + 1) seen (Expr.var v) = chaseF m f (v :: seen) e := by
  rw [chaseF, if_neg hseen, hlook]

/-- If the second-pass map only keeps bindings the first-pass map had, with
values of the same chase-relevant shape, then wherever the first-pass chase
fell back to the default traversal, the second-pass chase does too. -/
theorem chaseF_transfer : ∀ (f1 : Nat) (m1 m2 : VarMap) (f2 : Nat)
    (seen : List Nat) (v : Nat) (d1 : ChaseRes),
    mapLE m1 m2 →
    chaseF m1 f1 seen (Expr.var v) = some d1 →
    defaultish d1 →
    keysNotSeen m2 seen < f2 →
    ∃ d2, chaseF m2 f2 seen (Expr.var v) = some d2 ∧ defaultish d2 := by
  intro f1
  induction f1 with
  | zero =>
    intro m1 m2 f2 seen v d1 _ h _ _
    rw [chaseF] at h
    cases h
  | succ f1 ih =>
    intro m1 m2 f2 seen v d1 hR h hd hfuel
    by_cases hseen : v ∈ seen
    · rw [chaseF, if_pos hseen] at h
      cases h
    · obtain ⟨f2', rfl⟩ : ∃ f2', f2 = f2' + 1 := ⟨f2 - 1, by omega⟩
      cases h1 : lookupVar m1 v with
      | none =>
        rw [chaseF_var_none m1 f1 seen v hseen h1] at h
        cases h
        cases h2 : lookupVar m2 v with
        | none =>
          exact ⟨ChaseRes.unmapped v, chaseF_var_none m2 f2' seen v hseen h2,
            trivial⟩
        | some e2 =>
          obtain ⟨e1, he1, _⟩ := hR v e2 h2
          rw [he1] at h1
          cases h1
      | some e1 =>
        rw [chaseF_var_some m1 f1 seen v e1 hseen h1] at h
        cases h2 : lookupVar m2 v with
        | none =>
          exact ⟨ChaseRes.unmapped v, chaseF_var_none m2 f2' seen v hseen h2,
            trivial⟩
        | some e2 =>
          obtain ⟨e1', he1', hk⟩ := hR v e2 h2
          rw [h1] at he1'
          cases he1'
          have hdec : keysNotSeen m2 (v :: seen) < keysNotSeen m2 seen :=
            keysNotSeen_decreases hseen h2
          rw [chaseF_var_some m2 f2' seen v e2 hseen h2]
          cases hke1 : kindOf e1 with
          | kvar w =>
            have he1v := kindOf_kvar hke1
            subst he1v
            have he2v := kindOf_kvar (hke1 ▸ hk).symm
            subst he2v
            exact ih m1 m2 f2' (v :: seen) w d1 hR h hd (by omega)
          | kprim =>
            have hp := kindOf_kprim hke1
            have hnv : isVarE e1 = false := by
              cases e1 with
              | func ps b p => rfl
              | var w => simp [isPrimLit] at hp
              | gvar g => simp [isPrimLit] at hp
              | call op args ty => simp [isPrimLit] at hp
              | lett a b c => simp [isPrimLit] at hp
              | ite a b c => simp [isPrimLit] at hp
            obtain ⟨f1', rfl⟩ : ∃ f1', f1 = f1' + 1 := by
              cases f1 with
              | zero => rw [chaseF] at h; cases h
              | succ k => exact ⟨k, rfl⟩
            rw [chaseF_nonvar m1 f1' (v :: seen) e1 hnv] at h
            cases h
            obtain ⟨hdp, _⟩ := hd
            rw [hp] at hdp
            cases hdp
          | kgvar =>
            have hg := kindOf_kgvar hke1
            have hnv : isVarE e1 = false := by
              cases e1 with
              | gvar g => rfl
              | var w => simp [isGvarE] at hg
              | func ps b p => simp [isGvarE] at hg
              | call op args ty => simp [isGvarE] at hg
              | lett a b c => simp [isGvarE] at hg
              | ite a b c => simp [isGvarE] at hg
            obtain ⟨f1', rfl⟩ : ∃ f1', f1 = f1' + 1 := by
              cases f1 with
              | zero => rw [chaseF] at h; cases h
              | succ k => exact ⟨k, rfl⟩
            rw [chaseF_nonvar m1 f1' (v :: seen) e1 hnv] at h
            cases h
            obtain ⟨_, hdg⟩ := hd
            rw [hg] at hdg
            cases hdg
          | kother =>
            obtain ⟨hnv1, _, _⟩ := kindOf_kother hke1
            obtain ⟨hnv2, hp2, hg2⟩ := kindOf_kother (hke1 ▸ hk).symm
            obtain ⟨f2'', rfl⟩ : ∃ k, f2' = k + 1 := ⟨f2' - 1, by omega⟩
            rw [chaseF_nonvar m2 f2'' (v :: seen) e2 hnv2]
            exact ⟨ChaseRes.nonVar e2, rfl, hp2, hg2⟩

/-- `chase_transfer` at the fuel the call visitor actually uses. -/
theorem chase_transfer (m1 m2 : VarMap) (v : Nat) (d1 : ChaseRes)
    (hR : mapLE m1 m2) (h : chase m1 [] (Expr.var v) = some d1)
    (hd : defaultish d1) :
    ∃ d2, chase m2 [] (Expr.var v) = some d2 ∧ defaultish d2 := by
  have hfuel : keysNotSeen m2 [] < m2.length + 1 := by
    unfold keysNotSeen
    have := List.length_filter_le (fun p : Nat × Expr =>
      decide (p.1 ∉ ([] : List Nat))) m2
    omega
  exact chaseF_transfer (m1.length + 1) m1 m2 (m2.length + 1) [] v d1 hR h hd hfuel

mutual

/-- Structural facts about one inliner traversal: existing `var_map` entries
are never changed, every new entry is keyed by a let binder of the visited
expression, and the chase-relevant shape of the expression is preserved. -/
theorem visitE_props : ∀ (e : Expr) (m m' : VarMap) (e' : Expr),
    visitE m e = some (m', e') →
    ((∀ v x, lookupVar m v = some x → lookupVar m' v = some x) ∧
     (∀ v x, lookupVar m' v = some x → lookupVar m v = some x ∨ v ∈ bindersE e)) ∧
    (kindOf e' = kindOf e ∧ notLet e' = notLet e)
  | Expr.var v, m, m', e', h => by
    unfold visitE at h
    cases h
    exact ⟨⟨fun v x hx => hx, fun v x hx => Or.inl hx⟩, rfl, rfl⟩
  | Expr.gvar g, m, m', e', h => by
    unfold visitE at h
    cases h
    exact ⟨⟨fun v x hx => hx, fun v x hx => Or.inl hx⟩, rfl, rfl⟩
  | Expr.func ps b prim, m, m', e', h => by
    unfold visitE at h
    cases prim with
    | true =>
      rw [if_pos rfl] at h
      cases h
      exact ⟨⟨fun v x hx => hx, fun v x hx => Or.inl hx⟩, rfl, rfl⟩
    | false =>
      rw [if_neg (by simp)] at h
      obtain ⟨⟨ma, b1⟩, hb, h2⟩ := bindO_ok h
      cases h2
      have ih := visitE_props b m ma b1 hb
      exact ⟨⟨ih.1.1, fun v x hx => ih.1.2 v x hx⟩, rfl, rfl⟩
  | Expr.lett v value body, m, m', e', h => by
    unfold visitE at h
    obtain ⟨⟨ma, val1⟩, hval, h2⟩ := bindO_ok h
    obtain ⟨⟨mc, body1⟩, hbody, h3⟩ := bindO_ok h2
    cases h3
    have ihv := visitE_props value m ma val1 hval
    have ihb := visitE_props body (insertIfAbsent ma v val1) mc body1 hbody
    refine ⟨⟨?_, ?_⟩, rfl, rfl⟩
    · intro w x hx
      exact ihb.1.1 w x (lookupVar_insertIfAbsent_mono ma v val1 w x
        (ihv.1.1 w x hx))
    · intro w x hx
      rcases ihb.1.2 w x hx with hx2 | hmem
      · rcases lookupVar_insertIfAbsent_dom ma v val1 w x hx2 with hx3 | hw
        · rcases ihv.1.2 w x hx3 with hx4 | hmem2
          · exact Or.inl hx4
          · refine Or.inr ?_
            rw [bindersE]
            exact List.mem_cons_of_mem _ (List.mem_append_left _ hmem2)
        · refine Or.inr ?_
          rw [bindersE, hw]
          exact List.mem_cons_self _ _
      · refine Or.inr ?_
        rw [bindersE]
        exact List.mem_cons_of_mem _ (List.mem_append_right _ hmem)
  | Expr.ite c t e, m, m', e', h => by
    unfold visitE at h
    obtain ⟨⟨ma, c1⟩, hc, h2⟩ := bindO_ok h
    obtain ⟨⟨mb, t1⟩, ht, h3⟩ := bindO_ok h2
    obtain ⟨⟨mc, e1⟩, he, h4⟩ := bindO_ok h3
    cases h4
    have ihc := visitE_props c m ma c1 hc
    have iht := visitE_props t ma mb t1 ht
    have ihe := visitE_props e mb mc e1 he
    refine ⟨⟨?_, ?_⟩, rfl, rfl⟩
    · intro w x hx
      exact ihe.1.1 w x (iht.1.1 w x (ihc.1.1 w x hx))
    · intro w x hx
      rcases ihe.1.2 w x hx with hx2 | hmem
      · rcases iht.1.2 w x hx2 with hx3 | hmem
        · rcases ihc.1.2 w x hx3 with hx4 | hmem
          · exact Or.inl hx4
          · refine Or.inr ?_
            rw [bindersE]
            exact List.mem_append_left _ (List.mem_append_left _ hmem)
        · refine Or.inr ?_
          rw [bindersE]
          exact List.mem_append_left _ (List.mem_append_right _ hmem)
      · refine Or.inr ?_
        rw [bindersE]
        exact List.mem_append_right _ hmem
  | Expr.call op args ty, m, m', e', h => by
    unfold visitE at h
    obtain ⟨r, hch, h2⟩ := bindO_ok h
    have hdefault : ∀ (h3 : (do
        let ro ← visitE m op
        let ra ← visitL ro.1 args
        some (ra.1, Expr.call ro.2 ra.2 ty) : Option (VarMap × Expr))
          = some (m', e')),
        ((∀ v x, lookupVar m v = some x → lookupVar m' v = some x) ∧
         (∀ v x, lookupVar m' v = some x →
           lookupVar m v = some x ∨ v ∈ bindersE (Expr.call op args ty))) ∧
        (kindOf e' = kindOf (Expr.call op args ty) ∧
         notLet e' = notLet (Expr.call op args ty)) := by
      intro h3
      obtain ⟨⟨ma, op1⟩, hop, h4⟩ := bindO_ok h3
      obtain ⟨⟨mb, args1⟩, hargs, h5⟩ := bindO_ok h4
      cases h5
      have iho := visitE_props op m ma op1 hop
      have iha := visitL_props args ma mb args1 hargs
      refine ⟨⟨?_, ?_⟩, rfl, rfl⟩
      · intro w x hx
        exact iha.1 w x (iho.1.1 w x hx)
      · intro w x hx
        rcases iha.2 w x hx with hx2 | hmem
        · rcases iho.1.2 w x hx2 with hx3 | hmem
          · exact Or.inl hx3
          · refine Or.inr ?_
            rw [bindersE]
            exact List.mem_append_left _ hmem
        · refine Or.inr ?_
          rw [bindersE]
          exact List.mem_append_right _ hmem
    cases r with
    | nonVar ec =>
      replace h2 : (if isPrimLit ec = true then some (m, Expr.call ec args ty)
          else if isGvarE ec = true then some (m, Expr.call ec args ty)
          else do
            let ro ← visitE m op
            let ra ← visitL ro.1 args
            some (ra.1, Expr.call ro.2 ra.2 ty)) = some (m', e') := h2
      by_cases hp : isPrimLit ec = true
      · rw [if_pos hp] at h2
        cases h2
        exact ⟨⟨fun v x hx => hx, fun v x hx => Or.inl hx⟩, rfl, rfl⟩
      · rw [if_neg hp] at h2
        by_cases hg : isGvarE ec = true
        · rw [if_pos hg] at h2
          cases h2
          exact ⟨⟨fun v x hx => hx, fun v x hx => Or.inl hx⟩, rfl, rfl⟩
        · rw [if_neg hg] at h2
          exact hdefault h2
    | unmapped w =>
      replace h2 : (do
          let ro ← visitE m op
          let ra ← visitL ro.1 args
          some (ra.1, Expr.call ro.2 ra.2 ty) : Option (VarMap × Expr))
            = some (m', e') := h2
      exact hdefault h2

/-- `visitE_props` for the default traversal of an argument list. -/
theorem visitL_props : ∀ (l : List Expr) (m m' : VarMap) (l' : List Expr),
    visitL m l = some (m', l') →
    (∀ v x, lookupVar m v = some x → lookupVar m' v = some x) ∧
    (∀ v x, lookupVar m' v = some x → lookupVar m v = some x ∨ v ∈ bindersL l)
  | [], m, m', l', h => by
    unfold visitL at h
    cases h
    exact ⟨fun v x hx => hx, fun v x hx => Or.inl hx⟩
  | a :: as, m, m', l', h => by
    unfold visitL at h
    obtain ⟨⟨ma, a1⟩, ha, h2⟩ := bindO_ok h
    obtain ⟨⟨mb, as1⟩, has, h3⟩ := bindO_ok h2
    cases h3
    have iha := visitE_props a m ma a1 ha
    have ihas := visitL_props as ma mb as1 has
    refine ⟨?_, ?_⟩
    · intro w x hx
      exact ihas.1 w x (iha.1.1 w x hx)
    · intro w x hx
      rcases ihas.2 w x hx with hx2 | hmem
      · rcases iha.1.2 w x hx2 with hx3 | hmem
        · exact Or.inl hx3
        · refine Or.inr ?_
          rw [bindersL]
          exact List.mem_append_left _ hmem
      · refine Or.inr ?_
        rw [bindersL]
        exact List.mem_append_right _ hmem

end

theorem notLet_dce {e : Expr} (h : notLet e = true) : notLet (dce e) = true := by
  cases e with
  | var v => rfl
  | gvar g => rfl
  | func ps b p => rfl
  | call op args ty => rfl
  | lett v value body => simp [notLet] at h
  | ite c t e => rfl

mutual

/-- Dead-code elimination is idempotent. -/
theorem dce_idem : ∀ (e : Expr), dce (dce e) = dce e
  | Expr.var v => rfl
  | Expr.gvar g => rfl
  | Expr.func ps b p => by
    rw [dce, dce, dce_idem b]
  | Expr.call op args ty => by
    rw [dce, dce, dce_idem op, dceL_idem args]
  | Expr.lett v value body => by
    rw [dce]
    by_cases hv : v ∈ fvE (dce body)
    · rw [if_pos hv, dce, dce_idem body, if_pos hv, dce_idem value]
    · rw [if_neg hv, dce_idem body]
  | Expr.ite c t e => by
    rw [dce, dce, dce_idem c, dce_idem t, dce_idem e]

theorem dceL_idem : ∀ (l : List Expr), dceL (dceL l) = dceL l
  | [] => rfl
  | a :: as => by
    rw [dceL, dceL, dce_idem a, dceL_idem as]

end

theorem freshIn_after_visit {e : Expr} {m m' : VarMap} {e' : Expr}
    (h : visitE m e = some (m', e')) {bs : List Nat}
    (hfresh : freshIn m bs) (hdis : ∀ v ∈ bs, v ∉ bindersE e) :
    freshIn m' bs := by
  intro v hv
  cases hx : lookupVar m' v with
  | none => rfl
  | some x =>
    rcases (visitE_props e m m' e' h).1.2 v x hx with h1 | h2
    · rw [hfresh v hv] at h1
      cases h1
    · exact absurd h2 (hdis v hv)

theorem freshIn_insert {m : VarMap} {v : Nat} {e : Expr} (bs : List Nat)
    (hfresh : freshIn m bs) (hv : v ∉ bs) :
    freshIn (insertIfAbsent m v e) bs := by
  intro w hw
  cases hx : lookupVar (insertIfAbsent m v e) w with
  | none => rfl
  | some x =>
    rcases lookupVar_insertIfAbsent_dom m v e w x hx with h1 | h2
    · rw [hfresh w hw] at h1
      cases h1
    · rw [h2] at hw
      exact absurd hw hv

theorem mapLE_insert {m1 m2 : VarMap} {v : Nat} {e1 e2 : Expr}
    (hR : mapLE m1 m2) (hfresh1 : lookupVar m1 v = none)
    (hk : kindOf e1 = kindOf e2) :
    mapLE (insertIfAbsent m1 v e1) (insertIfAbsent m2 v e2) := by
  have hfresh2 : lookupVar m2 v = none := by
    cases hx : lookupVar m2 v with
    | none => rfl
    | some x =>
      obtain ⟨y, hy, _⟩ := hR v x hx
      rw [hfresh1] at hy
      cases hy
  rw [insertIfAbsent_fresh m1 v e1 hfresh1, insertIfAbsent_fresh m2 v e2 hfresh2]
  intro w ee2 hw
  rw [lookupVar] at hw
  by_cases hvw : v = w
  · rw [if_pos hvw] at hw
    cases hw
    refine ⟨e1, ?_, hk⟩
    rw [lookupVar, if_pos hvw]
  · rw [if_neg hvw] at hw
    obtain ⟨ee1, he1, hk2⟩ := hR w ee2 hw
    refine ⟨ee1, ?_, hk2⟩
    rw [lookupVar, if_neg hvw]
    exact he1

theorem visitE_var (m : VarMap) (w : Nat) :
    visitE m (Expr.var w) = some (m, Expr.var w) := by
  unfold visitE
  rfl

theorem visitE_call_prim (m : VarMap) (ec : Expr) (args : List Expr) (ty : Ty)
    (hv : isVarE ec = false) (hp : isPrimLit ec = true) :
    visitE m (Expr.call ec args ty) = some (m, Expr.call ec args ty) := by
  unfold visitE
  rw [chase_nonvar m ec hv]
  show (if isPrimLit ec = true then some (m, Expr.call ec args ty)
      else if isGvarE ec = true then some (m, Expr.call ec args ty)
      else do
        let ro ← visitE m ec
        let ra ← visitL ro.1 args
        some (ra.1, Expr.call ro.2 ra.2 ty)) = some (m, Expr.call ec args ty)
  rw [if_pos hp]

theorem visitE_call_gvar (m : VarMap) (ec : Expr) (args : List Expr) (ty : Ty)
    (hv : isVarE ec = false) (hp : isPrimLit ec = false)
    (hg : isGvarE ec = true) :
    visitE m (Expr.call ec args ty) = some (m, Expr.call ec args ty) := by
  unfold visitE
  rw [chase_nonvar m ec hv]
  show (if isPrimLit ec = true then some (m, Expr.call ec args ty)
      else if isGvarE ec = true then some (m, Expr.call ec args ty)
      else do
        let ro ← visitE m ec
        let ra ← visitL ro.1 args
        some (ra.1, Expr.call ro.2 ra.2 ty)) = some (m, Expr.call ec args ty)
  rw [if_neg (by rw [hp]; simp), if_pos hg]

theorem visitE_call_default (m : VarMap) (op : Expr) (args : List Expr)
    (ty : Ty) (d : ChaseRes) (hch : chase m [] op = some d) (hd : defaultish d)
    (ma mb : VarMap) (op1 : Expr) (args1 : List Expr)
    (hop : visitE m op = some (ma, op1))
    (hargs : visitL ma args = some (mb, args1)) :
    visitE m (Expr.call op args ty) = some (mb, Expr.call op1 args1 ty) := by
  unfold visitE
  rw [hch]
  cases d with
  | unmapped w =>
    show (do
      let ro ← visitE m op
      let ra ← visitL ro.1 args
      some (ra.1, Expr.call ro.2 ra.2 ty) : Option (VarMap × Expr)) =
      some (mb, Expr.call op1 args1 ty)
    rw [hop]
    show (do
      let ra ← visitL ma args
      some (ra.1, Expr.call op1 ra.2 ty) : Option (VarMap × Expr)) =
      some (mb, Expr.call op1 args1 ty)
    rw [hargs]
    rfl
  | nonVar ec =>
    obtain ⟨hp, hg⟩ := hd
    show (if isPrimLit ec = true then some (m, Expr.call ec args ty)
        else if isGvarE ec = true then some (m, Expr.call ec args ty)
        else do
          let ro ← visitE m op
          let ra ← visitL ro.1 args
          some (ra.1, Expr.call ro.2 ra.2 ty)) =
      some (mb, Expr.call op1 args1 ty)
    rw [if_neg (by rw [hp]; simp), if_neg (by rw [hg]; simp)]
    show (do
      let ro ← visitE m op
      let ra ← visitL ro.1 args
      some (ra.1, Expr.call ro.2 ra.2 ty) : Option (VarMap × Expr)) =
      some (mb, Expr.call op1 args1 ty)
    rw [hop]
    show (do
      let ra ← visitL ma args
      some (ra.1, Expr.call op1 ra.2 ty) : Option (VarMap × Expr)) =
      some (mb, Expr.call op1 args1 ty)
    rw [hargs]
    rfl

mutual

/-- The heart of the idempotence argument: if the first pass visits a flat
expression with fresh, pairwise-distinct let binders, then a second pass —
run on the dead-code-eliminated output with any map that keeps only
first-pass bindings of the same chase-relevant shape — changes nothing, and
the two maps stay in correspondence. -/
theorem visit2_id : ∀ (e : Expr) (m1 m2 m1' : VarMap) (e1 : Expr),
    flatE e = true → (bindersE e).Nodup → freshIn m1 (bindersE e) →
    mapLE m1 m2 →
    visitE m1 e = some (m1', e1) →
    ∃ m2', visitE m2 (dce e1) = some (m2', dce e1) ∧ mapLE m1' m2'
  | Expr.var v, m1, m2, m1', e1, _, _, _, hR, h => by
    unfold visitE at h
    cases h
    exact ⟨m2, visitE_var m2 v, hR⟩
  | Expr.gvar g, m1, m2, m1', e1, _, _, _, hR, h => by
    unfold visitE at h
    cases h
    refine ⟨m2, ?_, hR⟩
    unfold visitE
    rfl
  | Expr.func ps b prim, m1, m2, m1', e1, hflat, hnd, hfresh, hR, h => by
    unfold visitE at h
    cases prim with
    | true =>
      rw [if_pos rfl] at h
      cases h
      refine ⟨m2, ?_, hR⟩
      rw [dce]
      unfold visitE
      rw [if_pos rfl]
    | false =>
      rw [if_neg (by simp)] at h
      obtain ⟨⟨m1a, b1⟩, hb, h2⟩ := bindO_ok h
      cases h2
      obtain ⟨m2a, hb2, hR2⟩ := visit2_id b m1 m2 m1a b1 hflat hnd hfresh hR hb
      refine ⟨m2a, ?_, hR2⟩
      rw [dce]
      unfold visitE
      rw [if_neg (by simp), hb2]
      rfl
  | Expr.lett v value body, m1, m2, m1', e1, hflat, hnd, hfresh, hR, h => by
    unfold visitE at h
    obtain ⟨⟨m1a, val1⟩, hval, h2⟩ := bindO_ok h
    obtain ⟨⟨m1c, body1⟩, hbody, h3⟩ := bindO_ok h2
    cases h3
    rw [flatE] at hflat
    simp only [Bool.and_eq_true] at hflat
    obtain ⟨hnl, hfv, hfb⟩ := hflat
    rw [bindersE] at hnd hfresh
    simp only [List.nodup_cons, List.nodup_append] at hnd
    obtain ⟨hvnotin, hndv, hndb, hdisj⟩ := hnd
    have hfv1 : lookupVar m1 v = none := hfresh v (List.mem_cons_self _ _)
    have hfreshv : freshIn m1 (bindersE value) := fun w hw =>
      hfresh w (List.mem_cons_of_mem _ (List.mem_append_left _ hw))
    have hfreshb : freshIn m1 (bindersE body) := fun w hw =>
      hfresh w (List.mem_cons_of_mem _ (List.mem_append_right _ hw))
    obtain ⟨m2a, hval2, hRa⟩ :=
      visit2_id value m1 m2 m1a val1 hfv hndv hfreshv hR hval
    have pv := visitE_props value m1 m1a val1 hval
    have hva : lookupVar m1a v = none := by
      cases hx : lookupVar m1a v with
      | none => rfl
      | some x =>
        rcases pv.1.2 v x hx with h1 | h2
        · rw [hfv1] at h1
          cases h1
        · exact absurd (List.mem_append_left _ h2) hvnotin
    have hnlval1 : notLet val1 = true := by
      rw [pv.2.2]
      exact hnl
    have hkdce : kindOf val1 = kindOf (dce val1) := (kindOf_dce hnlval1).symm
    have hfreshb1 : freshIn (insertIfAbsent m1a v val1) (bindersE body) :=
      freshIn_insert _
        (freshIn_after_visit hval hfreshb (fun w hw hmem => hdisj hmem hw))
        (fun hvb => hvnotin (List.mem_append_right _ hvb))
    by_cases hvmem : v ∈ fvE (dce body1)
    · have hR1 : mapLE (insertIfAbsent m1a v val1)
          (insertIfAbsent m2a v (dce val1)) :=
        mapLE_insert hRa hva hkdce
      obtain ⟨m2c, hbody2, hRc⟩ := visit2_id body (insertIfAbsent m1a v val1)
        (insertIfAbsent m2a v (dce val1)) m1c body1 hfb hndb hfreshb1 hR1 hbody
      refine ⟨m2c, ?_, hRc⟩
      rw [dce, if_pos hvmem]
      unfold visitE
      rw [hval2]
      show (do
        let rb ← visitE (insertIfAbsent m2a v (dce val1)) (dce body1)
        some (rb.1, Expr.lett v (dce val1) rb.2) : Option (VarMap × Expr)) =
        some (m2c, Expr.lett v (dce val1) (dce body1))
      rw [hbody2]
      rfl
    · rw [dce, if_neg hvmem]
      have hR1 : mapLE (insertIfAbsent m1a v val1) m2 := by
        intro w e2 hw
        obtain ⟨e1', he1', hk⟩ := hR w e2 hw
        exact ⟨e1', lookupVar_insertIfAbsent_mono m1a v val1 w e1'
          (pv.1.1 w e1' he1'), hk⟩
      obtain ⟨m2c, hbody2, hRc⟩ := visit2_id body (insertIfAbsent m1a v val1)
        m2 m1c body1 hfb hndb hfreshb1 hR1 hbody
      exact ⟨m2c, hbody2, hRc⟩
  | Expr.ite c t e, m1, m2, m1', e1, hflat, hnd, hfresh, hR, h => by
    unfold visitE at h
    obtain ⟨⟨m1a, c1⟩, hc, h2⟩ := bindO_ok h
    obtain ⟨⟨m1b, t1⟩, ht, h3⟩ := bindO_ok h2
    obtain ⟨⟨m1c, e1'⟩, he, h4⟩ := bindO_ok h3
    cases h4
    rw [flatE] at hflat
    simp only [Bool.and_eq_true] at hflat
    obtain ⟨hfc, hft, hfe⟩ := hflat
    rw [bindersE] at hnd hfresh
    simp only [List.nodup_append] at hnd
    obtain ⟨⟨hndc, hndt, hdisct⟩, hnde, hdise⟩ := hnd
    have hfreshc : freshIn m1 (bindersE c) := fun w hw =>
      hfresh w (List.mem_append_left _ (List.mem_append_left _ hw))
    have hfresht : freshIn m1 (bindersE t) := fun w hw =>
      hfresh w (List.mem_append_left _ (List.mem_append_right _ hw))
    have hfreshe : freshIn m1 (bindersE e) := fun w hw =>
      hfresh w (List.mem_append_right _ hw)
    obtain ⟨m2a, hc2, hRa⟩ := visit2_id c m1 m2 m1a c1 hfc hndc hfreshc hR hc
    have hfresht1 : freshIn m1a (bindersE t) :=
      freshIn_after_visit hc hfresht (fun w hw hmem => hdisct hmem hw)
    obtain ⟨m2b, ht2, hRb⟩ := visit2_id t m1a m2a m1b t1 hft hndt hfresht1 hRa ht
    have hfreshe1 : freshIn m1a (bindersE e) :=
      freshIn_after_visit hc hfreshe
        (fun w hw hmem => hdise (List.mem_append_left _ hmem) hw)
    have hfreshe2 : freshIn m1b (bindersE e) :=
      freshIn_after_visit ht hfreshe1
        (fun w hw hmem => hdise (List.mem_append_right _ hmem) hw)
    obtain ⟨m2c, he2, hRc⟩ := visit2_id e m1b m2b m1c e1' hfe hnde hfreshe2 hRb he
    refine ⟨m2c, ?_, hRc⟩
    rw [dce]
    unfold visitE
    rw [hc2]
    show (do
      let rt ← visitE m2a (dce t1)
      let re ← visitE rt.1 (dce e1')
      some (re.1, Expr.ite (dce c1) rt.2 re.2) : Option (VarMap × Expr)) =
      some (m2c, Expr.ite (dce c1) (dce t1) (dce e1'))
    rw [ht2]
    show (do
      let re ← visitE m2b (dce e1')
      some (re.1, Expr.ite (dce c1) (dce t1) re.2) : Option (VarMap × Expr)) =
      some (m2c, Expr.ite (dce c1) (dce t1) (dce e1'))
    rw [he2]
    rfl
  | Expr.call op args ty, m1, m2, m1', e1, hflat, hnd, hfresh, hR, h => by
    unfold visitE at h
    obtain ⟨r, hch, h2⟩ := bindO_ok h
    rw [flatE] at hflat
    simp only [Bool.and_eq_true] at hflat
    obtain ⟨hnlop, hfop, hfargs⟩ := hflat
    rw [bindersE] at hnd hfresh
    simp only [List.nodup_append] at hnd
    obtain ⟨hndo, hnda, hdis⟩ := hnd
    have hfresho : freshIn m1 (bindersE op) := fun w hw =>
      hfresh w (List.mem_append_left _ hw)
    have hfresha : freshIn m1 (bindersL args) := fun w hw =>
      hfresh w (List.mem_append_right _ hw)
    cases r with
    | nonVar ec =>
      replace h2 : (if isPrimLit ec = true then some (m1, Expr.call ec args ty)
          else if isGvarE ec = true then some (m1, Expr.call ec args ty)
          else do
            let ro ← visitE m1 op
            let ra ← visitL ro.1 args
            some (ra.1, Expr.call ro.2 ra.2 ty)) = some (m1', e1) := h2
      by_cases hp : isPrimLit ec = true
      · rw [if_pos hp] at h2
        cases h2
        refine ⟨m2, ?_, hR⟩
        obtain ⟨ps, b, rfl⟩ : ∃ ps b, ec = Expr.func ps b true := by
          cases ec with
          | func ps b p =>
            cases p with
            | true => exact ⟨ps, b, rfl⟩
            | false => simp [isPrimLit] at hp
          | var w => simp [isPrimLit] at hp
          | gvar g => simp [isPrimLit] at hp
          | call a b c => simp [isPrimLit] at hp
          | lett a b c => simp [isPrimLit] at hp
          | ite a b c => simp [isPrimLit] at hp
        rw [dce, dce]
        exact visitE_call_prim m2 (Expr.func ps (dce b) true) (dceL args) ty
          rfl rfl
      · rw [if_neg hp] at h2
        simp only [Bool.not_eq_true] at hp
        by_cases hg : isGvarE ec = true
        · rw [if_pos hg] at h2
          cases h2
          refine ⟨m2, ?_, hR⟩
          obtain ⟨g, rfl⟩ : ∃ g, ec = Expr.gvar g := by
            cases ec with
            | gvar g => exact ⟨g, rfl⟩
            | var w => simp [isGvarE] at hg
            | func a b c => simp [isGvarE] at hg
            | call a b c => simp [isGvarE] at hg
            | lett a b c => simp [isGvarE] at hg
            | ite a b c => simp [isGvarE] at hg
          rw [dce, dce]
          exact visitE_call_gvar m2 (Expr.gvar g) (dceL args) ty rfl rfl rfl
        · rw [if_neg hg] at h2
          simp only [Bool.not_eq_true] at hg
          obtain ⟨⟨m1a, op1⟩, hop, h3⟩ := bindO_ok h2
          obtain ⟨⟨m1b, args1⟩, hargs, h4⟩ := bindO_ok h3
          cases h4
          cases hvop : isVarE op with
          | true =>
            obtain ⟨w0, rfl⟩ : ∃ w0, op = Expr.var w0 := by
              cases op with
              | var w0 => exact ⟨w0, rfl⟩
              | gvar g => simp [isVarE] at hvop
              | func a b c => simp [isVarE] at hvop
              | call a b c => simp [isVarE] at hvop
              | lett a b c => simp [isVarE] at hvop
              | ite a b c => simp [isVarE] at hvop
            rw [visitE_var m1 w0] at hop
            cases hop
            obtain ⟨m2b, hargs2, hRb⟩ :=
              visitL2_id args m1 m2 m1b args1 hfargs hnda hfresha hR hargs
            obtain ⟨d2, hch2, hdef2⟩ := chase_transfer m1 m2 w0
              (ChaseRes.nonVar ec) hR hch ⟨hp, hg⟩
            refine ⟨m2b, ?_, hRb⟩
            rw [dce, dce]
            exact visitE_call_default m2 (Expr.var w0) (dceL args1) ty d2 hch2
              hdef2 m2 m2b (Expr.var w0) (dceL args1) (visitE_var m2 w0) hargs2
          | false =>
            rw [chase_nonvar m1 op hvop] at hch
            cases hch
            have po := visitE_props op m1 m1a op1 hop
            obtain ⟨m2a, hop2, hRa⟩ :=
              visit2_id op m1 m2 m1a op1 hfop hndo hfresho hR hop
            have hfresha1 : freshIn m1a (bindersL args) :=
              freshIn_after_visit hop hfresha (fun w hw hmem => hdis hmem hw)
            obtain ⟨m2b, hargs2, hRb⟩ :=
              visitL2_id args m1a m2a m1b args1 hfargs hnda hfresha1 hRa hargs
            have hkop : kindOf (dce op1) = VKind.kother := by
              rw [kindOf_dce (by rw [po.2.2]; exact hnlop), po.2.1]
              exact kindOf_eq_kother hvop hp hg
            obtain ⟨hv2, hp2, hg2⟩ := kindOf_kother hkop
            refine ⟨m2b, ?_, hRb⟩
            rw [dce]
            exact visitE_call_default m2 (dce op1) (dceL args1) ty
              (ChaseRes.nonVar (dce op1)) (chase_nonvar m2 (dce op1) hv2)
              ⟨hp2, hg2⟩ m2a m2b (dce op1) (dceL args1) hop2 hargs2
    | unmapped w =>
      replace h2 : (do
          let ro ← visitE m1 op
          let ra ← visitL ro.1 args
          some (ra.1, Expr.call ro.2 ra.2 ty) : Option (VarMap × Expr))
            = some (m1', e1) := h2
      obtain ⟨⟨m1a, op1⟩, hop, h3⟩ := bindO_ok h2
      obtain ⟨⟨m1b, args1⟩, hargs, h4⟩ := bindO_ok h3
      cases h4
      cases hvop : isVarE op with
      | false =>
        rw [chase_nonvar m1 op hvop] at hch
        cases hch
      | true =>
        obtain ⟨w0, rfl⟩ : ∃ w0, op = Expr.var w0 := by
          cases op with
          | var w0 => exact ⟨w0, rfl⟩
          | gvar g => simp [isVarE] at hvop
          | func a b c => simp [isVarE] at hvop
          | call a b c => simp [isVarE] at hvop
          | lett a b c => simp [isVarE] at hvop
          | ite a b c => simp [isVarE] at hvop
        rw [visitE_var m1 w0] at hop
        cases hop
        obtain ⟨m2b, hargs2, hRb⟩ :=
          visitL2_id args m1 m2 m1b args1 hfargs hnda hfresha hR hargs
        obtain ⟨d2, hch2, hdef2⟩ := chase_transfer m1 m2 w0
          (ChaseRes.unmapped w) hR hch trivial
        refine ⟨m2b, ?_, hRb⟩
        rw [dce, dce]
        exact visitE_call_default m2 (Expr.var w0) (dceL args1) ty d2 hch2
          hdef2 m2 m2b (Expr.var w0) (dceL args1) (visitE_var m2 w0) hargs2

/-- `visit2_id` for argument lists. -/
theorem visitL2_id : ∀ (l : List Expr) (m1 m2 m1' : VarMap) (l1 : List Expr),
    flatL l = true → (bindersL l).Nodup → freshIn m1 (bindersL l) →
    mapLE m1 m2 →
    visitL m1 l = some (m1', l1) →
    ∃ m2', visitL m2 (dceL l1) = some (m2', dceL l1) ∧ mapLE m1' m2'
  | [], m1, m2, m1', l1, _, _, _, hR, h => by
    unfold visitL at h
    cases h
    refine ⟨m2, ?_, hR⟩
    unfold visitL
    rfl
  | a :: as, m1, m2, m1', l1, hflat, hnd, hfresh, hR, h => by
    unfold visitL at h
    obtain ⟨⟨m1a, a1⟩, ha, h2⟩ := bindO_ok h
    obtain ⟨⟨m1b, as1⟩, has, h3⟩ := bindO_ok h2
    cases h3
    rw [flatL] at hflat
    simp only [Bool.and_eq_true] at hflat
    obtain ⟨hfa, hfas⟩ := hflat
    rw [bindersL] at hnd hfresh
    simp only [List.nodup_append] at hnd
    obtain ⟨hnda, hndas, hdis⟩ := hnd
    have hfresha : freshIn m1 (bindersE a) := fun w hw =>
      hfresh w (List.mem_append_left _ hw)
    have hfreshas : freshIn m1 (bindersL as) := fun w hw =>
      hfresh w (List.mem_append_right _ hw)
    obtain ⟨m2a, ha2, hRa⟩ := visit2_id a m1 m2 m1a a1 hfa hnda hfresha hR ha
    have hfreshas1 : freshIn m1a (bindersL as) :=
      freshIn_after_visit ha hfreshas (fun w hw hmem => hdis hmem hw)
    obtain ⟨m2b, has2, hRb⟩ :=
      visitL2_id as m1a m2a m1b as1 hfas hndas hfreshas1 hRa has
    refine ⟨m2b, ?_, hRb⟩
    rw [dceL]
    unfold visitL
    rw [ha2]
    show (do
      let ras ← visitL m2a (dceL as1)
      some (ras.1, dce a1 :: ras.2) : Option (VarMap × List Expr)) =
      some (m2b, dce a1 :: dceL as1)
    rw [has2]
    rfl

end

/-- `visit2_id` lifted to the module loop: a second inliner pass over the
output of a first pass is the identity, provided the module is flat and all
its let binders are distinct (distinct `VarNode`s in the C++). -/
theorem inlinePrims2_id : ∀ (mod : RModule) (m1 m2 : VarMap) (mod1 : RModule),
    (∀ p ∈ mod, flatE p.2 = true) →
    (modBinders mod).Nodup →
    freshIn m1 (modBinders mod) →
    mapLE m1 m2 →
    inlinePrimsAux m1 mod = some mod1 →
    inlinePrimsAux m2 mod1 = some mod1 := by
  intro mod
  induction mod with
  | nil =>
    intro m1 m2 mod1 _ _ _ _ h
    unfold inlinePrimsAux at h
    cases h
    rfl
  | cons p rest ih =>
    intro m1 m2 mod1 hflat hnd hfresh hR h
    obtain ⟨g, f⟩ := p
    unfold inlinePrimsAux at h
    obtain ⟨⟨m1x, f1⟩, hf, h2⟩ := bindO_ok h
    obtain ⟨rest1, hrest, h3⟩ := bindO_ok h2
    cases h3
    rw [modBinders] at hnd hfresh
    simp only [List.nodup_append] at hnd
    obtain ⟨hndf, hndrest, hdis⟩ := hnd
    have hfreshf : freshIn m1 (bindersE f) := fun w hw =>
      hfresh w (List.mem_append_left _ hw)
    have hfreshr : freshIn m1 (modBinders rest) := fun w hw =>
      hfresh w (List.mem_append_right _ hw)
    have hflatf : flatE f = true := hflat (g, f) (List.mem_cons_self _ _)
    have hflatr : ∀ q ∈ rest, flatE q.2 = true := fun q hq =>
      hflat q (List.mem_cons_of_mem _ hq)
    cases f with
    | func ps b p =>
      unfold inlineFn at hf
      obtain ⟨⟨m1a, b1⟩, hb, hf2⟩ := bindO_ok hf
      cases hf2
      obtain ⟨m2a, hb2, hR2⟩ :=
        visit2_id b m1 m2 m1a b1 hflatf hndf hfreshf hR hb
      have hfreshr1 : freshIn m1a (modBinders rest) := by
        intro w hw
        cases hx : lookupVar m1a w with
        | none => rfl
        | some x =>
          rcases (visitE_props b m1 m1a b1 hb).1.2 w x hx with h1 | h2
          · rw [hfreshr w hw] at h1
            cases h1
          · exact absurd hw (hdis h2)
      have hrest2 := ih m1a m2a rest1 hflatr hndrest hfreshr1 hR2 hrest
      have hfn2 : inlineFn m2 (Expr.func ps (dce b1) p) =
          some (m2a, Expr.func ps (dce b1) p) := by
        show (do
          let r ← visitE m2 (dce b1)
          some (r.1, Expr.func ps (dce r.2) p) : Option (VarMap × Expr)) =
          some (m2a, Expr.func ps (dce b1) p)
        rw [hb2]
        show some (m2a, Expr.func ps (dce (dce b1)) p) =
          some (m2a, Expr.func ps (dce b1) p)
        rw [dce_idem b1]
      unfold inlinePrimsAux
      rw [hfn2]
      show (do
        let rrest ← inlinePrimsAux m2a rest1
        some ((g, Expr.func ps (dce b1) p) :: rrest) : Option RModule) =
        some ((g, Expr.func ps (dce b1) p) :: rest1)
      rw [hrest2]
      rfl
    | var v =>
      unfold inlineFn at hf
      cases hf
      unfold inlinePrimsAux
      rw [show inlineFn m2 (Expr.var v) = some (m2, Expr.var v) from rfl]
      show (do
        let rrest ← inlinePrimsAux m2 rest1
        some ((g, Expr.var v) :: rrest) : Option RModule) =
        some ((g, Expr.var v) :: rest1)
      rw [ih m1 m2 rest1 hflatr hndrest hfreshr hR hrest]
      rfl
    | gvar gv =>
      unfold inlineFn at hf
      cases hf
      unfold inlinePrimsAux
      rw [show inlineFn m2 (Expr.gvar gv) = some (m2, Expr.gvar gv) from rfl]
      show (do
        let rrest ← inlinePrimsAux m2 rest1
        some ((g, Expr.gvar gv) :: rrest) : Option RModule) =
        some ((g, Expr.gvar gv) :: rest1)
      rw [ih m1 m2 rest1 hflatr hndrest hfreshr hR hrest]
      rfl
    | call op args ty =>
      unfold inlineFn at hf
      cases hf
      unfold inlinePrimsAux
      rw [show inlineFn m2 (Expr.call op args ty) =
          some (m2, Expr.call op args ty) from rfl]
      show (do
        let rrest ← inlinePrimsAux m2 rest1
        some ((g, Expr.call op args ty) :: rrest) : Option RModule) =
        some ((g, Expr.call op args ty) :: rest1)
      rw [ih m1 m2 rest1 hflatr hndrest hfreshr hR hrest]
      rfl
    | lett v value body =>
      unfold inlineFn at hf
      cases hf
      unfold inlinePrimsAux
      rw [show inlineFn m2 (Expr.lett v value body) =
          some (m2, Expr.lett v value body) from rfl]
      show (do
        let rrest ← inlinePrimsAux m2 rest1
        some ((g, Expr.lett v value body) :: rrest) : Option RModule) =
        some ((g, Expr.lett v value body) :: rest1)
      rw [ih m1 m2 rest1 hflatr hndrest hfreshr hR hrest]
      rfl
    | ite c t e =>
      unfold inlineFn at hf
      cases hf
      unfold inlinePrimsAux
      rw [show inlineFn m2 (Expr.ite c t e) = some (m2, Expr.ite c t e) from rfl]
      show (do
        let rrest ← inlinePrimsAux m2 rest1
        some ((g, Expr.ite c t e) :: rrest) : Option RModule) =
        some ((g, Expr.ite c t e) :: rest1)
      rw [ih m1 m2 rest1 hflatr hndrest hfreshr hR hrest]
      rfl

/-- The aliasing-chain module `fn(x4) { let v1 = prim; let v2 = v1; v2(x4) }`
(spec §8, scenario 5): a flat module on which the inliner does real work. -/
def aliasMod : RModule :=
  [(0, Expr.func [4]
    (Expr.lett 1 primId
      (Expr.lett 2 (Expr.var 1)
        (Expr.call (Expr.var 2) [Expr.var 4] (Ty.tensorTy [4] DTy.float32))))
    false)]

/-- C7 (amended): the inliner is idempotent on every module in which no let
binding stands as the value of another let or in call-operator position, and
whose let binders are pairwise distinct (in the C++ the map is keyed on
distinct `VarNode` pointers; the embedding keys it on names).  On such
modules a second application changes nothing, whether the first returns a
module or diverges.  `C7_counterexample` shows the restriction is needed:
with a let-valued let, dead-code elimination collapses the stored binding
into a fresh alias that only a second pass can chase. -/
theorem C7_inliner_idempotent_flat (mod : RModule)
    (hflat : ∀ p ∈ mod, flatE p.2 = true)
    (hnd : (modBinders mod).Nodup) :
    (InlinePrimitives mod).bind InlinePrimitives = InlinePrimitives mod := by
  cases hI : InlinePrimitives mod with
  | none => rfl
  | some mod1 =>
    show InlinePrimitives mod1 = some mod1
    exact inlinePrims2_id mod [] [] mod1 hflat hnd (fun v hv => rfl)
      (fun v e2 hl => by rw [lookupVar] at hl; cases hl) hI

/-- Witness for C7: the flat aliasing-chain module satisfies both
hypotheses, and on it one inliner pass (which rewrites the call) equals
two. -/
theorem C7_inliner_idempotent_flat_witness :
    ((∀ p ∈ aliasMod, flatE p.2 = true) ∧ (modBinders aliasMod).Nodup) ∧
    (InlinePrimitives aliasMod).bind InlinePrimitives =
      InlinePrimitives aliasMod :=
  ⟨⟨by decide, by decide⟩,
    C7_inliner_idempotent_flat aliasMod (by decide) (by decide)⟩
